import Mathlib

/-!
Verification of the meld knowledge-management backend (Rust) against its
natural-language specification.  Rust strings are modelled as `List Char`
(`Str`), Rust `u64` as `Nat` with explicit saturation at `2 ^ 64 - 1`,
`f64` retrieval scores as exact rationals, and fallible functions as
`Except`/`Option`.  Each definition is a direct shallow embedding of the
corresponding function in `src-tauri/src`.
-/

namespace Meld

/-- Rust strings are sequences of Unicode scalar values. -/
abbrev Str := List Char

/-- Shorthand turning a Lean string literal into the `Str` model. -/
def lit (s : String) : Str := s.toList

/-- Unicode `White_Space` test, the predicate behind Rust's
`char::is_whitespace` used by `str::trim` and `str::split_whitespace`. -/
def isWsChar (c : Char) : Bool :=
  let n := c.toNat
  n == 9 || n == 10 || n == 11 || n == 12 || n == 13 || n == 32 ||
  n == 0x85 || n == 0xA0 || n == 0x1680 ||
  (0x2000 ≤ n && n ≤ 0x200A) ||
  n == 0x2028 || n == 0x2029 || n == 0x202F || n == 0x205F || n == 0x3000

/-- Model of Rust `str::trim`: drop leading and trailing whitespace. -/
def rustTrim (s : Str) : Str :=
  ((s.dropWhile isWsChar).reverse.dropWhile isWsChar).reverse

/-- Helper for `splitWs`: `acc` is the reversed current word; hitting a
whitespace character flushes the accumulated word (when non-empty). -/
def splitWsAux : Str → Str → List Str
  | [], acc => if acc = [] then [] else [acc.reverse]
  | c :: rest, acc =>
    if isWsChar c then
      (if acc = [] then [] else [acc.reverse]) ++ splitWsAux rest []
    else splitWsAux rest (c :: acc)

/-- Model of Rust `str::split_whitespace`: split at whitespace runs,
producing the non-empty maximal runs of non-whitespace characters. -/
def splitWs (l : Str) : List Str := splitWsAux l []

/-- Model of `Vec::<&str>::join(" ")`: interpose a single space. -/
def joinSpace : List Str → Str
  | [] => []
  | [w] => w
  | w :: t => w ++ ' ' :: joinSpace t

/-- A word produced by `split_whitespace`: non-empty, no whitespace. -/
def TokOk (w : Str) : Prop := w ≠ [] ∧ ∀ c ∈ w, isWsChar c = false

theorem splitWsAux_nonws_append :
    ∀ (w : Str), (∀ c ∈ w, isWsChar c = false) → ∀ (l acc : Str),
      splitWsAux (w ++ l) acc = splitWsAux l (w.reverse ++ acc) := by
  intro w
  induction w with
  | nil => intro _ l acc; simp
  | cons a t ih =>
    intro h l acc
    simp only [List.cons_append, splitWsAux, h a (by simp)]
    simp only [Bool.false_eq_true, if_false, List.append_eq]
    rw [ih (fun c hc => h c (by simp [hc])) l (a :: acc)]
    simp

theorem splitWs_all_tokOk : ∀ l : Str, ∀ w ∈ splitWs l, TokOk w := by
  have main : ∀ (l acc : Str), (∀ c ∈ acc, isWsChar c = false) →
      ∀ w ∈ splitWsAux l acc, TokOk w := by
    intro l
    induction l with
    | nil =>
      intro acc hacc w hw
      by_cases h : acc = []
      · simp [splitWsAux, h] at hw
      · simp [splitWsAux, h] at hw
        subst hw
        exact ⟨by simpa using h, fun c hc => hacc c (by simpa using hc)⟩
    | cons c rest ih =>
      intro acc hacc w hw
      simp only [splitWsAux] at hw
      by_cases hws : isWsChar c
      · rw [if_pos hws] at hw
        rcases List.mem_append.mp hw with h | h
        · by_cases hacc0 : acc = []
          · simp [hacc0] at h
          · simp [hacc0] at h
            subst h
            exact ⟨by simpa using hacc0, fun d hd => hacc d (by simpa using hd)⟩
        · exact ih [] (by simp) w h
      · rw [if_neg hws] at hw
        refine ih (c :: acc) ?_ w hw
        intro d hd
        rcases List.mem_cons.mp hd with h | h
        · subst h; exact Bool.of_not_eq_true hws
        · exact hacc d h
  intro l w hw
  exact main l [] (by simp) w hw

theorem splitWs_all_nonWs (w : Str) (hne : w ≠ [])
    (h : ∀ c ∈ w, isWsChar c = false) : splitWs w = [w] := by
  have : splitWs w = splitWsAux (w ++ []) [] := by simp [splitWs]
  rw [this, splitWsAux_nonws_append w h [] []]
  have hrev : w.reverse ++ [] ≠ [] := by simpa using hne
  simp [splitWsAux, hrev, hne]

theorem splitWs_word_ws (w : Str) (hne : w ≠ [])
    (hok : ∀ c ∈ w, isWsChar c = false) (c : Char) (hc : isWsChar c = true)
    (s : Str) : splitWs (w ++ c :: s) = w :: splitWs s := by
  unfold splitWs
  rw [splitWsAux_nonws_append w hok (c :: s) []]
  have hrev : w.reverse ++ [] ≠ [] := by simpa using hne
  simp [splitWsAux, hc, hrev, hne]

theorem splitWs_joinSpace : ∀ ws : List Str, (∀ w ∈ ws, TokOk w) →
    splitWs (joinSpace ws) = ws := by
  intro ws
  induction ws with
  | nil => intro _; simp [joinSpace, splitWs, splitWsAux]
  | cons w t ih =>
    intro h
    obtain ⟨hne, hok⟩ := h w (by simp)
    match t with
    | [] => exact splitWs_all_nonWs w hne hok
    | x :: xs =>
      show splitWs (w ++ ' ' :: joinSpace (x :: xs)) = w :: (x :: xs)
      rw [splitWs_word_ws w hne hok ' ' (by decide) _]
      rw [ih (fun u hu => h u (by simp [hu]))]

/-!
Markdown chunker, `src-tauri/src/adapters/markdown/mod.rs`, `chunk_text`
(lines 73-99).  The Rust `while` loop is modelled with explicit fuel; the
`usize` subtraction `end - overlap` is modelled by the `.panicked` outcome
when it would underflow (debug-mode Rust panics there).
-/

/-- Outcome of running the chunking loop with a given amount of fuel. -/
inductive ChunkRun
  | done : List Str → ChunkRun
  | panicked : ChunkRun
  | fuelOut : ChunkRun
deriving DecidableEq

/-- The `while start < words.len()` loop of `chunk_text`.  Each iteration
pushes `words[start..end].join(" ")` with `end = min(start + chunk_size,
words.len())`, breaks when `end` reaches the word count, and otherwise
continues from `end - overlap`. -/
def chunkLoop (words : List Str) (cs ov : Nat) : Nat → Nat → ChunkRun
  | 0, _ => .fuelOut
  | fuel + 1, start =>
    if start < words.length then
      let e := min (start + cs) words.length
      let chunk := joinSpace ((words.drop start).take cs)
      if words.length ≤ e then .done [chunk]
      else if e < ov then .panicked
      else
        match chunkLoop words cs ov fuel (e - ov) with
        | .done rest => .done (chunk :: rest)
        | r => r
    else .done []

/-- Model of `chunk_text(text, chunk_size, overlap)` as a loop run: empty
text gives no chunks; at most `chunk_size` words give one joined chunk;
otherwise the loop runs (with fuel that suffices whenever
`overlap < chunk_size`). -/
def chunk_text_run (text : Str) (cs ov : Nat) : ChunkRun :=
  if text = [] then .done []
  else
    let words := splitWs text
    if words.length ≤ cs then .done [joinSpace words]
    else chunkLoop words cs ov (words.length + 1) 0

/-- The chunks produced by `chunk_text` (meaningful when the loop run
terminates, which is proved under the precondition
`overlap < chunk_size`). -/
def chunk_text (text : Str) (cs ov : Nat) : List Str :=
  match chunk_text_run text cs ov with
  | .done out => out
  | _ => []

/-- Concatenation of chunk token lists respecting overlap: keep the first
chunk whole and drop the first `ov` tokens of every later chunk. -/
def catOv (ov : Nat) : List (List Str) → List Str
  | [] => []
  | c :: rest => c ++ (rest.map (fun w => w.drop ov)).flatten

theorem chunkLoop_spec :
    ∀ (fuel : Nat) (words : List Str) (cs ov start : Nat),
      0 < cs → ov < cs → start < words.length →
      words.length - start ≤ fuel → (∀ w ∈ words, TokOk w) →
      ∃ out, chunkLoop words cs ov fuel start = .done out ∧
        out ≠ [] ∧
        (out.map splitWs).head? = some ((words.drop start).take cs) ∧
        catOv ov (out.map splitWs) = words.drop start ∧
        ∀ c ∈ out.dropLast, (splitWs c).length = cs := by
  intro fuel
  induction fuel with
  | zero =>
    intro words cs ov start _ _ hlt hfuel _
    omega
  | succ fuel ih =>
    intro words cs ov start hcs hov hlt hfuel hwords
    have hslice : ∀ w ∈ (words.drop start).take cs, TokOk w := by
      intro w hw
      exact hwords w (List.mem_of_mem_drop (List.mem_of_mem_take hw))
    have hsplit : splitWs (joinSpace ((words.drop start).take cs)) =
        (words.drop start).take cs := splitWs_joinSpace _ hslice
    rw [chunkLoop, if_pos hlt]
    by_cases hbreak : words.length ≤ min (start + cs) words.length
    · rw [if_pos hbreak]
      have hle : (words.drop start).length ≤ cs := by
        simp only [List.length_drop]; omega
      have hEq : (words.drop start).take cs = words.drop start :=
        List.take_of_length_le hle
      rw [hEq] at hsplit
      refine ⟨[joinSpace (words.drop start)], by rw [hEq], by simp, ?_, ?_, by simp⟩
      · simp [hsplit, hEq]
      · simp [catOv, hsplit]
    · rw [if_neg hbreak]
      have he : min (start + cs) words.length = start + cs := by omega
      have hnp : ¬ (min (start + cs) words.length < ov) := by omega
      rw [if_neg hnp]
      have hlt' : start + cs - ov < words.length := by omega
      have hfuel' : words.length - (start + cs - ov) ≤ fuel := by omega
      obtain ⟨out', hrun', hne', hhead', hcat', hlast'⟩ :=
        ih words cs ov (start + cs - ov) hcs hov hlt' hfuel' hwords
      rw [he, hrun']
      refine ⟨joinSpace ((words.drop start).take cs) :: out', rfl, by simp, by simp [hsplit], ?_, ?_⟩
      · match out', hne' with
        | hd :: tl, _ =>
          have hhd : splitWs hd = (words.drop (start + cs - ov)).take cs := by
            simpa using hhead'
          have hhdlen : ov ≤ (splitWs hd).length := by
            rw [hhd]
            simp only [List.length_take, List.length_drop]
            omega
          simp only [List.map_cons, catOv, List.flatten_cons] at hcat' ⊢
          rw [hsplit]
          have hstep : (splitWs hd).drop ov ++
              ((List.map splitWs tl).map (fun w => w.drop ov)).flatten =
              ((splitWs hd ++
                ((List.map splitWs tl).map (fun w => w.drop ov)).flatten).drop ov) := by
            rw [List.drop_append_of_le_length hhdlen]
          rw [hstep, hcat', List.drop_drop]
          have harith : start + cs - ov + ov = start + cs := by omega
          rw [harith]
          have hsplit2 : words.drop (start + cs) = (words.drop start).drop cs := by
            rw [List.drop_drop]
          rw [hsplit2]
          exact List.take_append_drop cs (words.drop start)
      · match out', hne' with
        | hd :: tl, _ =>
          intro c hc
          simp only [List.dropLast_cons₂] at hc
          rcases List.mem_cons.mp hc with h | h
          · subst h
            rw [hsplit]
            simp only [List.length_take, List.length_drop]
            omega
          · exact hlast' c h

theorem chunkLoop_stuck (words : List Str) (cs ov : Nat)
    (hlen : cs < words.length) (hovcs : cs ≤ ov) :
    ∀ (fuel : Nat) (out : List Str), chunkLoop words cs ov fuel 0 ≠ .done out := by
  intro fuel
  induction fuel with
  | zero => intro out; simp [chunkLoop]
  | succ fuel ih =>
    intro out
    have h0 : 0 < words.length := by omega
    have hmin : min (0 + cs) words.length = cs := by omega
    rw [chunkLoop, if_pos h0, hmin]
    rw [if_neg (by omega)]
    by_cases hstrict : cs < ov
    · rw [if_pos hstrict]
      simp
    · rw [if_neg hstrict]
      have hce : cs = ov := by omega
      have hz : cs - ov = 0 := by omega
      rw [hz]
      cases hrec : chunkLoop words cs ov fuel 0 with
      | done rest => exact absurd hrec (ih rest)
      | panicked => simp
      | fuelOut => simp

/-- C10: `chunk_text` terminates for every input under `overlap <
chunk_size` (with `chunk_size ≥ 1`), and the precondition is necessary:
with `overlap ≥ chunk_size` and more than `chunk_size` whitespace tokens
in the text, the loop's start index never advances (`overlap =
chunk_size`) or the `usize` subtraction `end - overlap` underflows
(`overlap > chunk_size`), so no amount of fuel makes the loop finish
normally. -/
theorem C10_chunk_text_termination :
    (∀ (text : Str) (cs ov : Nat), 0 < cs → ov < cs →
      chunk_text_run text cs ov = .done (chunk_text text cs ov)) ∧
    (∀ (text : Str) (cs ov : Nat), cs ≤ ov → cs < (splitWs text).length →
      ∀ (fuel : Nat) (out : List Str),
        chunkLoop (splitWs text) cs ov fuel 0 ≠ .done out) := by
  constructor
  · intro text cs ov hcs hov
    unfold chunk_text chunk_text_run
    by_cases hempty : text = []
    · simp [hempty]
    · rw [if_neg hempty]
      by_cases hsmall : (splitWs text).length ≤ cs
      · rw [if_pos hsmall]
      · rw [if_neg hsmall]
        obtain ⟨out, hrun, _⟩ :=
          chunkLoop_spec ((splitWs text).length + 1) (splitWs text) cs ov 0
            hcs hov (by omega) (by omega) (splitWs_all_tokOk text)
        rw [hrun]
  · intro text cs ov hle hlen fuel out
    exact chunkLoop_stuck (splitWs text) cs ov hlen hle fuel out

/-- Witness for C10 at concrete inputs: `chunk_size = 2, overlap = 1`
terminates on a three-word text, while `chunk_size = overlap = 1` never
finishes on the same text for any fuel. -/
theorem C10_witness :
    chunk_text_run (lit "a b c") 2 1 = .done (chunk_text (lit "a b c") 2 1) ∧
    ∀ (out : List Str), chunkLoop (splitWs (lit "a b c")) 1 1 5 0 ≠ .done out :=
  ⟨C10_chunk_text_termination.1 (lit "a b c") 2 1 (by decide) (by decide),
   fun out =>
     C10_chunk_text_termination.2 (lit "a b c") 1 1 (by decide) (by decide) 5 out⟩

/-- C9: for every heading-less document (whose extracted plain text is an
arbitrary string), `chunk_size ≥ 1` and `overlap < chunk_size`,
concatenating the chunk contents while dropping the first `overlap`
tokens of every chunk after the first reconstructs exactly the
whitespace-token sequence of the text, and every chunk except possibly
the last holds exactly `chunk_size` tokens. -/
theorem C9_chunker_round_trip (text : Str) (cs ov : Nat)
    (hcs : 0 < cs) (hov : ov < cs) :
    catOv ov ((chunk_text text cs ov).map splitWs) = splitWs text ∧
    ∀ c ∈ (chunk_text text cs ov).dropLast, (splitWs c).length = cs := by
  unfold chunk_text chunk_text_run
  by_cases hempty : text = []
  · subst hempty
    simp [splitWs, splitWsAux, catOv]
  · rw [if_neg hempty]
    by_cases hsmall : (splitWs text).length ≤ cs
    · rw [if_pos hsmall]
      simp only
      constructor
      · simp [catOv, splitWs_joinSpace (splitWs text) (splitWs_all_tokOk text)]
      · simp
    · rw [if_neg hsmall]
      obtain ⟨out, hrun, hne, hhead, hcat, hlast⟩ :=
        chunkLoop_spec ((splitWs text).length + 1) (splitWs text) cs ov 0
          hcs hov (by omega) (by omega) (splitWs_all_tokOk text)
      rw [hrun]
      simp only [List.drop_zero] at hcat
      exact ⟨hcat, hlast⟩

/-- Witness for C9 at a concrete four-word text with `chunk_size = 3,
overlap = 1`. -/
theorem C9_witness :
    catOv 1 ((chunk_text (lit "alpha beta gamma delta") 3 1).map splitWs) =
      splitWs (lit "alpha beta gamma delta") ∧
    ∀ c ∈ (chunk_text (lit "alpha beta gamma delta") 3 1).dropLast,
      (splitWs c).length = 3 :=
  C9_chunker_round_trip (lit "alpha beta gamma delta") 3 1 (by decide) (by decide)

/-!
Vault path normalization, `src-tauri/src/adapters/vault/mod.rs`,
`normalize_note_path` (lines 216-248).
-/

/-- ASCII-only lowercasing of one character (`char::to_ascii_lowercase`). -/
def asciiLower (c : Char) : Char :=
  if 'A' ≤ c ∧ c ≤ 'Z' then Char.ofNat (c.toNat + 32) else c

/-- Model of `str::replace('\\', "/")` for the single-character pattern. -/
def backslashToSlash (s : Str) : Str :=
  s.map (fun c => if c = '\\' then '/' else c)

/-- Helper for `splitOnChar`: returns the segment before the first
separator together with the remaining segments. -/
def splitOnCharP (x : Char) : Str → Str × List Str
  | [] => ([], [])
  | c :: rest =>
    let p := splitOnCharP x rest
    if c = x then ([], p.1 :: p.2) else (c :: p.1, p.2)

/-- Model of Rust `str::split(sep)` for a character separator. -/
def splitOnChar (x : Char) (l : Str) : List Str :=
  (splitOnCharP x l).1 :: (splitOnCharP x l).2

/-- Whitespace normalization of one path segment:
`raw_part.split_whitespace().collect::<Vec<_>>().join(" ")`. -/
def normalize_part (raw : Str) : Str := joinSpace (splitWs raw)

/-- The segment loop of `normalize_note_path`: skip empty and `"."`
segments, reject `".."`, keep everything else in order. -/
def collectParts : List Str → Except Str (List Str)
  | [] => .ok []
  | raw :: rest =>
    let part := normalize_part raw
    if part = [] then collectParts rest
    else if part = lit "." then collectParts rest
    else if part = lit ".." then
      .error (lit "Parent directory segments (..) are not allowed")
    else (collectParts rest).map (fun ps => part :: ps)

/-- Model of `normalize_note_path` (vault/mod.rs:216-248): trim, turn
backslashes into slashes, fail on empty, normalize each `/`-segment,
reject `..`, re-join, and force a (case-insensitive) `.md` suffix. -/
def normalize_note_path (requested_path : Str) : Except Str Str :=
  let normalized_slashes := backslashToSlash (rustTrim requested_path)
  if normalized_slashes = [] then .error (lit "Note path is empty")
  else
    match collectParts (splitOnChar '/' normalized_slashes) with
    | .error e => .error e
    | .ok parts =>
      if parts = [] then .error (lit "Note path is empty")
      else
        let path := List.intercalate (lit "/") parts
        if (lit ".md").isSuffixOf (path.map asciiLower) then .ok path
        else .ok (path ++ lit ".md")

theorem splitOnCharP_sep_not_mem (x : Char) :
    ∀ l : Str, (x ∉ (splitOnCharP x l).1) ∧ ∀ seg ∈ (splitOnCharP x l).2, x ∉ seg := by
  intro l
  induction l with
  | nil => simp [splitOnCharP]
  | cons c rest ih =>
    by_cases hc : c = x
    · refine ⟨by simp [splitOnCharP, hc], ?_⟩
      intro seg hseg
      simp only [splitOnCharP, hc, if_pos rfl] at hseg
      rcases List.mem_cons.mp hseg with h | h
      · subst h; exact ih.1
      · exact ih.2 seg h
    · constructor
      · simp only [splitOnCharP, if_neg hc]
        intro hmem
        rcases List.mem_cons.mp hmem with h | h
        · exact hc h.symm
        · exact ih.1 h
      · intro seg hseg
        simp only [splitOnCharP, if_neg hc] at hseg
        exact ih.2 seg hseg

theorem splitOnChar_sep_not_mem (x : Char) (l : Str) :
    ∀ seg ∈ splitOnChar x l, x ∉ seg := by
  intro seg hseg
  rcases List.mem_cons.mp hseg with h | h
  · subst h; exact (splitOnCharP_sep_not_mem x l).1
  · exact (splitOnCharP_sep_not_mem x l).2 seg h

theorem splitOnCharP_sepfree (x : Char) (w : Str) (hw : x ∉ w) :
    splitOnCharP x w = (w, []) := by
  induction w with
  | nil => simp [splitOnCharP]
  | cons c rest ih =>
    have hc : c ≠ x := fun h => hw (by simp [h])
    simp only [splitOnCharP, if_neg hc]
    rw [ih (fun h => hw (by simp [h]))]

theorem splitOnCharP_append_sep (x : Char) (w l : Str) (hw : x ∉ w) :
    splitOnCharP x (w ++ x :: l) =
      (w, (splitOnCharP x l).1 :: (splitOnCharP x l).2) := by
  induction w with
  | nil => simp [splitOnCharP]
  | cons c rest ih =>
    have hc : c ≠ x := fun h => hw (by simp [h])
    simp only [List.cons_append, splitOnCharP, if_neg hc, List.append_eq]
    rw [ih (fun h => hw (by simp [h]))]

theorem intercalate_cons_ne_nil (s : Str) (a : Str) (l : List Str) (h : l ≠ []) :
    List.intercalate s (a :: l) = a ++ s ++ List.intercalate s l := by
  match l, h with
  | b :: t, _ => simp [List.intercalate, List.intersperse]

theorem splitOnChar_intercalate (x : Char) :
    ∀ (parts : List Str), parts ≠ [] → (∀ p ∈ parts, x ∉ p) →
      splitOnChar x (List.intercalate [x] parts) = parts := by
  intro parts
  induction parts with
  | nil => intro h _; exact absurd rfl h
  | cons p rest ih =>
    intro _ hfree
    match rest with
    | [] =>
      have : List.intercalate [x] [p] = p := by simp [List.intercalate, List.intersperse]
      rw [this]
      unfold splitOnChar
      rw [splitOnCharP_sepfree x p (hfree p (by simp))]
    | q :: t =>
      rw [intercalate_cons_ne_nil [x] p (q :: t) (by simp)]
      have hp : x ∉ p := hfree p (by simp)
      have hrec : splitOnChar x (List.intercalate [x] (q :: t)) = q :: t :=
        ih (by simp) (fun u hu => hfree u (by simp [hu]))
      unfold splitOnChar at hrec ⊢
      rw [List.append_assoc, List.singleton_append,
        splitOnCharP_append_sep x p (List.intercalate [x] (q :: t)) hp]
      exact congrArg (fun z => p :: z) hrec

theorem splitWsAux_chars :
    ∀ (l acc : Str) (w : Str), w ∈ splitWsAux l acc → ∀ c ∈ w, c ∈ l ∨ c ∈ acc := by
  intro l
  induction l with
  | nil =>
    intro acc w hw c hc
    by_cases h : acc = []
    · simp [splitWsAux, h] at hw
    · simp [splitWsAux, h] at hw
      subst hw
      exact Or.inr (by simpa using hc)
  | cons a rest ih =>
    intro acc w hw c hc
    simp only [splitWsAux] at hw
    by_cases hws : isWsChar a
    · rw [if_pos hws] at hw
      rcases List.mem_append.mp hw with h | h
      · by_cases hacc0 : acc = []
        · simp [hacc0] at h
        · simp [hacc0] at h
          subst h
          exact Or.inr (by simpa using hc)
      · rcases ih [] w h c hc with h2 | h2
        · exact Or.inl (by simp [h2])
        · simp at h2
    · rw [if_neg hws] at hw
      rcases ih (a :: acc) w hw c hc with h2 | h2
      · exact Or.inl (by simp [h2])
      · rcases List.mem_cons.mp h2 with h3 | h3
        · exact Or.inl (by simp [h3])
        · exact Or.inr h3

theorem joinSpace_chars :
    ∀ (ws : List Str) (c : Char), c ∈ joinSpace ws → (∃ w ∈ ws, c ∈ w) ∨ c = ' ' := by
  intro ws
  induction ws with
  | nil => intro c hc; simp [joinSpace] at hc
  | cons w t ih =>
    intro c hc
    match t with
    | [] => exact Or.inl ⟨w, by simp, hc⟩
    | x :: xs =>
      have : c ∈ w ++ ' ' :: joinSpace (x :: xs) := hc
      rcases List.mem_append.mp this with h | h
      · exact Or.inl ⟨w, by simp, h⟩
      · rcases List.mem_cons.mp h with h2 | h2
        · exact Or.inr h2
        · rcases ih c h2 with ⟨u, hu, hcu⟩ | h3
          · exact Or.inl ⟨u, by simp [hu], hcu⟩
          · exact Or.inr h3

theorem normalize_part_chars (raw : Str) (c : Char) :
    c ∈ normalize_part raw → c ∈ raw ∨ c = ' ' := by
  intro hc
  rcases joinSpace_chars (splitWs raw) c hc with ⟨w, hw, hcw⟩ | h
  · rcases splitWsAux_chars raw [] w hw c hcw with h | h
    · exact Or.inl h
    · simp at h
  · exact Or.inr h

theorem collectParts_ok_facts :
    ∀ (raws : List Str) (parts : List Str), collectParts raws = .ok parts →
      ∀ p ∈ parts, p ≠ [] ∧ p ≠ lit "." ∧ p ≠ lit ".." ∧
        ∃ raw ∈ raws, p = normalize_part raw := by
  intro raws
  induction raws with
  | nil =>
    intro parts hok p hp
    simp only [collectParts, Except.ok.injEq] at hok
    subst hok
    simp at hp
  | cons raw rest ih =>
    intro parts hok p hp
    simp only [collectParts] at hok
    by_cases h1 : normalize_part raw = []
    · rw [if_pos h1] at hok
      obtain ⟨a, b, c, r, hr, he⟩ := ih parts hok p hp
      exact ⟨a, b, c, r, by simp [hr], he⟩
    · rw [if_neg h1] at hok
      by_cases h2 : normalize_part raw = lit "."
      · rw [if_pos h2] at hok
        obtain ⟨a, b, c, r, hr, he⟩ := ih parts hok p hp
        exact ⟨a, b, c, r, by simp [hr], he⟩
      · rw [if_neg h2] at hok
        by_cases h3 : normalize_part raw = lit ".."
        · rw [if_pos h3] at hok
          exact absurd hok (by simp)
        · rw [if_neg h3] at hok
          cases hrec : collectParts rest with
          | error e => rw [hrec] at hok; exact absurd hok (by simp [Except.map])
          | ok ps =>
            rw [hrec] at hok
            simp only [Except.map, Except.ok.injEq] at hok
            subst hok
            rcases List.mem_cons.mp hp with h | h
            · subst h
              exact ⟨h1, h2, h3, raw, by simp, rfl⟩
            · obtain ⟨a, b, c, r, hr, he⟩ := ih ps hrec p h
              exact ⟨a, b, c, r, by simp [hr], he⟩

theorem collectParts_err_of_ddot :
    ∀ (raws : List Str), (∃ raw ∈ raws, normalize_part raw = lit "..") →
      ∃ msg, collectParts raws = .error msg := by
  intro raws
  induction raws with
  | nil => intro h; simp at h
  | cons raw rest ih =>
    intro h
    simp only [collectParts]
    by_cases h1 : normalize_part raw = []
    · rw [if_pos h1]
      refine ih ?_
      obtain ⟨r, hr, he⟩ := h
      rcases List.mem_cons.mp hr with h2 | h2
      · subst h2; rw [h1] at he; exact absurd he (by decide)
      · exact ⟨r, h2, he⟩
    · rw [if_neg h1]
      by_cases h2 : normalize_part raw = lit "."
      · rw [if_pos h2]
        refine ih ?_
        obtain ⟨r, hr, he⟩ := h
        rcases List.mem_cons.mp hr with h3 | h3
        · subst h3; rw [h2] at he; exact absurd he (by decide)
        · exact ⟨r, h3, he⟩
      · by_cases h3 : normalize_part raw = lit ".."
        · rw [if_neg h2, if_pos h3]
          exact ⟨_, rfl⟩
        · rw [if_neg h2, if_neg h3]
          obtain ⟨msg, hmsg⟩ := ih (by
            obtain ⟨r, hr, he⟩ := h
            rcases List.mem_cons.mp hr with h4 | h4
            · subst h4; exact absurd he h3
            · exact ⟨r, h4, he⟩)
          exact ⟨msg, by rw [hmsg]; simp [Except.map]⟩

theorem collectParts_skip_all :
    ∀ (raws : List Str),
      (∀ raw ∈ raws, normalize_part raw = [] ∨ normalize_part raw = lit ".") →
      collectParts raws = .ok [] := by
  intro raws
  induction raws with
  | nil => intro _; rfl
  | cons raw rest ih =>
    intro h
    simp only [collectParts]
    rcases h raw (by simp) with h1 | h1
    · rw [if_pos h1]
      exact ih (fun r hr => h r (by simp [hr]))
    · by_cases h0 : normalize_part raw = []
      · rw [if_pos h0]
        exact ih (fun r hr => h r (by simp [hr]))
      · rw [if_neg h0, if_pos h1]
        exact ih (fun r hr => h r (by simp [hr]))

theorem intercalate_last_append (x : Char) (s : Str) :
    ∀ (parts : List Str) (h : parts ≠ []),
      List.intercalate [x] (parts.dropLast ++ [parts.getLast h ++ s]) =
        List.intercalate [x] parts ++ s := by
  intro parts
  induction parts with
  | nil => intro h; exact absurd rfl h
  | cons p rest ih =>
    intro _
    match rest with
    | [] => simp [List.intercalate, List.intersperse]
    | q :: t =>
      have hne : (q :: t).dropLast ++ [(q :: t).getLast (by simp) ++ s] ≠ [] := by
        simp
      have hl : (p :: q :: t).dropLast = p :: (q :: t).dropLast := rfl
      have hg : (p :: q :: t).getLast (by simp) = (q :: t).getLast (by simp) := by
        simp [List.getLast_cons]
      rw [hl, hg, List.cons_append,
        intercalate_cons_ne_nil [x] p _ hne,
        intercalate_cons_ne_nil [x] p (q :: t) (by simp),
        ih (by simp)]
      simp [List.append_assoc]

theorem intercalate_ne_nil_of_head (x : Char) (parts : List Str)
    (h0 : parts ≠ []) (hne : ∀ p ∈ parts, p ≠ []) :
    List.intercalate [x] parts ≠ [] := by
  match parts, h0 with
  | p :: rest, _ =>
    match rest with
    | [] =>
      have : List.intercalate [x] [p] = p := by
        simp [List.intercalate, List.intersperse]
      rw [this]
      exact hne p (by simp)
    | q :: t =>
      rw [intercalate_cons_ne_nil [x] p (q :: t) (by simp)]
      intro hcontra
      rw [List.append_assoc] at hcontra
      exact hne p (by simp) (List.append_eq_nil.mp hcontra).1

/-- C8: `normalize_note_path` trims, collapses whitespace runs inside
segments, rejects `..` segments, forces a case-insensitive `.md` suffix
and fails on paths that normalize to empty.  Consequently every
successful output is non-empty, ends in `.md` (case-insensitively) and
contains no empty and no `..` slash-segment, so resolving it under the
vault root cannot escape the root. -/
theorem C8_normalize_note_path (raw : Str) :
    (∀ out, normalize_note_path raw = Except.ok out →
      out ≠ [] ∧
      (lit ".md").isSuffixOf (out.map asciiLower) = true ∧
      ∀ seg ∈ splitOnChar '/' out, seg ≠ [] ∧ seg ≠ lit "..") ∧
    ((∃ seg ∈ splitOnChar '/' (backslashToSlash (rustTrim raw)),
        normalize_part seg = lit "..") →
      ∃ msg, normalize_note_path raw = Except.error msg) ∧
    ((∀ seg ∈ splitOnChar '/' (backslashToSlash (rustTrim raw)),
        normalize_part seg = [] ∨ normalize_part seg = lit ".") →
      ∃ msg, normalize_note_path raw = Except.error msg) := by
  have hslash : lit "/" = ['/'] := by decide
  refine ⟨?_, ?_, ?_⟩
  · intro out hout
    unfold normalize_note_path at hout
    by_cases hns : backslashToSlash (rustTrim raw) = []
    · rw [if_pos hns] at hout
      exact absurd hout (by simp)
    · rw [if_neg hns] at hout
      cases hcp : collectParts (splitOnChar '/' (backslashToSlash (rustTrim raw))) with
      | error e => rw [hcp] at hout; exact absurd hout (by simp)
      | ok parts =>
        rw [hcp] at hout
        dsimp only at hout
        by_cases hp0 : parts = []
        · rw [if_pos hp0] at hout
          exact absurd hout (by simp)
        · rw [if_neg hp0] at hout
          have facts := collectParts_ok_facts _ parts hcp
          have hnonempty : ∀ p ∈ parts, p ≠ [] := fun p hp => (facts p hp).1
          have hsepfree : ∀ p ∈ parts, '/' ∉ p := by
            intro p hp hmem
            obtain ⟨_, _, _, r, hr, he⟩ := facts p hp
            rw [he] at hmem
            rcases normalize_part_chars r '/' hmem with h | h
            · exact splitOnChar_sep_not_mem '/' _ r hr h
            · exact absurd h (by decide)
          rw [hslash] at hout
          by_cases hsuf : (lit ".md").isSuffixOf
              ((List.intercalate ['/'] parts).map asciiLower) = true
          · rw [if_pos hsuf] at hout
            cases hout
            refine ⟨intercalate_ne_nil_of_head '/' parts hp0 hnonempty, hsuf, ?_⟩
            rw [splitOnChar_intercalate '/' parts hp0 hsepfree]
            intro seg hseg
            exact ⟨(facts seg hseg).1, (facts seg hseg).2.2.1⟩
          · rw [if_neg hsuf] at hout
            cases hout
            have hlast_mem : parts.getLast hp0 ∈ parts := List.getLast_mem hp0
            have hparts' :
                List.intercalate ['/']
                    (parts.dropLast ++ [parts.getLast hp0 ++ lit ".md"]) =
                  List.intercalate ['/'] parts ++ lit ".md" :=
              intercalate_last_append '/' (lit ".md") parts hp0
            have hsep' : ∀ p ∈ parts.dropLast ++ [parts.getLast hp0 ++ lit ".md"],
                '/' ∉ p := by
              intro p hp
              rcases List.mem_append.mp hp with h | h
              · exact hsepfree p (List.dropLast_subset _ h)
              · simp only [List.mem_singleton] at h
                subst h
                intro hmem
                rcases List.mem_append.mp hmem with h | h
                · exact hsepfree _ hlast_mem h
                · exact absurd h (by decide)
            refine ⟨by simp [lit], ?_, ?_⟩
            · rw [List.map_append]
              have hmd : (lit ".md").map asciiLower = lit ".md" := by decide
              rw [hmd]
              exact List.isSuffixOf_iff_suffix.mpr (List.suffix_append _ _)
            · rw [← hparts',
                splitOnChar_intercalate '/' _ (by simp) hsep']
              intro seg hseg
              rcases List.mem_append.mp hseg with h | h
              · have hm := List.dropLast_subset _ h
                exact ⟨(facts seg hm).1, (facts seg hm).2.2.1⟩
              · simp only [List.mem_singleton] at h
                subst h
                constructor
                · simp [lit]
                · intro hcontra
                  have h1 : 1 ≤ (parts.getLast hp0).length :=
                    List.length_pos.mpr (hnonempty _ hlast_mem)
                  have h2 : (parts.getLast hp0 ++ lit ".md").length =
                      (parts.getLast hp0).length + 3 := by
                    simp [lit]
                  have h3 : (lit "..").length = 2 := by decide
                  rw [hcontra, h3] at h2
                  omega
  · intro hdd
    unfold normalize_note_path
    by_cases hns : backslashToSlash (rustTrim raw) = []
    · rw [if_pos hns]
      exact ⟨_, rfl⟩
    · rw [if_neg hns]
      obtain ⟨msg, hmsg⟩ := collectParts_err_of_ddot _ hdd
      rw [hmsg]
      exact ⟨msg, rfl⟩
  · intro hskip
    unfold normalize_note_path
    by_cases hns : backslashToSlash (rustTrim raw) = []
    · rw [if_pos hns]
      exact ⟨_, rfl⟩
    · rw [if_neg hns]
      rw [collectParts_skip_all _ hskip]
      exact ⟨_, rfl⟩

/-- Witness for C8: a successful normalization (spaces collapsed, `.md`
appended), a `..` rejection, and an all-empty rejection, each at a
concrete input. -/
theorem C8_witness :
    (lit "folder/Indie Hacking.md" ≠ [] ∧
      (lit ".md").isSuffixOf ((lit "folder/Indie Hacking.md").map asciiLower) = true ∧
      ∀ seg ∈ splitOnChar '/' (lit "folder/Indie Hacking.md"),
        seg ≠ [] ∧ seg ≠ lit "..") ∧
    (∃ msg, normalize_note_path (lit "a/../b") = Except.error msg) ∧
    (∃ msg, normalize_note_path (lit "  . ") = Except.error msg) :=
  ⟨(C8_normalize_note_path (lit " folder / Indie   Hacking ")).1
      (lit "folder/Indie Hacking.md") (by rfl),
   (C8_normalize_note_path (lit "a/../b")).2.1 ⟨lit "..", by decide, by decide⟩,
   (C8_normalize_note_path (lit "  . ")).2.2 (by decide)⟩

/-!
Provider error classification, `src-tauri/src/adapters/llm/mod.rs`,
lines 149-182.
-/

/-- Model of `str::to_ascii_lowercase`. -/
def lowerStr (s : Str) : Str := s.map asciiLower

/-- Model of `str::contains(substring)`: substring containment. -/
def containsSub (hay needle : Str) : Bool := decide (needle <:+: hay)

/-- Model of `is_retriable_provider_error` (llm/mod.rs:149-160).  The
markers are exactly the ones the code checks; note that `"501"` is
absent. -/
def is_retriable_provider_error (message : Str) : Bool :=
  let msg := lowerStr message
  containsSub msg (lit "429") || containsSub msg (lit "500") ||
  containsSub msg (lit "502") || containsSub msg (lit "503") ||
  containsSub msg (lit "504") || containsSub msg (lit "timeout") ||
  containsSub msg (lit "timed out") || containsSub msg (lit "temporar") ||
  containsSub msg (lit "rate limit")

/-- Model of `is_non_retriable_auth_error` (llm/mod.rs:162-169). -/
def is_non_retriable_auth_error (message : Str) : Bool :=
  let msg := lowerStr message
  containsSub msg (lit "401") || containsSub msg (lit "403") ||
  containsSub msg (lit "unauthorized") || containsSub msg (lit "forbidden") ||
  containsSub msg (lit "invalid api key")

/-- Model of `is_tool_routing_unsupported_error` (llm/mod.rs:171-175). -/
def is_tool_routing_unsupported_error (message : Str) : Bool :=
  let msg := lowerStr message
  containsSub msg (lit "no endpoints found that support tool use") ||
  (containsSub msg (lit "tool use") && containsSub msg (lit "provider-selection"))

/-- Model of `should_retry_provider_error` (llm/mod.rs:177-182). -/
def should_retry_provider_error (message : Str) : Bool :=
  if is_non_retriable_auth_error message || is_tool_routing_unsupported_error message
  then false
  else is_retriable_provider_error message

/-- The claim's retriable marker set, which includes `"501"`. -/
def claimRetriableMarkers : List Str :=
  [lit "429", lit "500", lit "501", lit "502", lit "503", lit "504",
   lit "timeout", lit "timed out", lit "temporary", lit "rate limit"]

/-- The claim's non-retriable override marker set. -/
def claimOverrideMarkers : List Str :=
  [lit "401", lit "403", lit "unauthorized", lit "forbidden",
   lit "invalid api key", lit "no endpoints found that support tool use"]

/-- Retry predicate following the words of claim C7 (for comparison with
the code's `should_retry_provider_error`). -/
def claim_should_retry (message : Str) : Bool :=
  claimRetriableMarkers.any (fun m => containsSub (lowerStr message) m) &&
  !(claimOverrideMarkers.any (fun m => containsSub (lowerStr message) m))

/-- Counterexample to C7 as stated: a plain `501` error is retriable per
the claim's marker set but the code retries only on 429/500/502/503/504
(`"501"` is missing from `is_retriable_provider_error`). -/
theorem C7_counterexample :
    claim_should_retry (lit "HTTP status 501 Not Implemented") = true ∧
    should_retry_provider_error (lit "HTTP status 501 Not Implemented") = false := by
  constructor <;> decide

/-- The code's retriable marker set: no `"501"`, and the prefix
`"temporar"` instead of the full word `"temporary"`. -/
def amendedRetriableMarkers : List Str :=
  [lit "429", lit "500", lit "502", lit "503", lit "504",
   lit "timeout", lit "timed out", lit "temporar", lit "rate limit"]

/-- The code's override markers, before the extra conjunctive
`tool use` + `provider-selection` check. -/
def amendedOverrideMarkers : List Str :=
  [lit "401", lit "403", lit "unauthorized", lit "forbidden",
   lit "invalid api key", lit "no endpoints found that support tool use"]

/-- Retry predicate following the amended claim: marker sets as the code
has them, plus the conjunctive OpenRouter tool-routing override. -/
def amended_should_retry (message : Str) : Bool :=
  amendedRetriableMarkers.any (fun m => containsSub (lowerStr message) m) &&
  !(amendedOverrideMarkers.any (fun m => containsSub (lowerStr message) m) ||
    (containsSub (lowerStr message) (lit "tool use") &&
     containsSub (lowerStr message) (lit "provider-selection")))

/-- C7 (amended): the retry decision holds if and only if the
(case-insensitive) message contains one of the code's retriable markers
{429, 500, 502, 503, 504, timeout, timed out, temporar-, rate limit} and
none of the overrides {401, 403, unauthorized, forbidden, invalid api
key, the OpenRouter no-endpoints wording, or both "tool use" and
"provider-selection"}. -/
theorem C7_retry_classification (s : Str) :
    should_retry_provider_error s = amended_should_retry s := by
  unfold should_retry_provider_error amended_should_retry
  have hA : (is_non_retriable_auth_error s || is_tool_routing_unsupported_error s)
      = (amendedOverrideMarkers.any (fun m => containsSub (lowerStr s) m) ||
        (containsSub (lowerStr s) (lit "tool use") &&
         containsSub (lowerStr s) (lit "provider-selection"))) := by
    unfold is_non_retriable_auth_error is_tool_routing_unsupported_error
      amendedOverrideMarkers
    simp only [List.any_cons, List.any_nil, Bool.or_false]
    ac_rfl
  have hR : is_retriable_provider_error s
      = amendedRetriableMarkers.any (fun m => containsSub (lowerStr s) m) := by
    unfold is_retriable_provider_error amendedRetriableMarkers
    simp only [List.any_cons, List.any_nil, Bool.or_false]
    ac_rfl
  rw [hR, ← hA]
  cases hX : (is_non_retriable_auth_error s || is_tool_routing_unsupported_error s) <;>
    simp

/-!
Token usage accounting, `src-tauri/src/adapters/llm/mod.rs` (lines
69-130) and the `StreamEvent::Usage` arm of the agent run loop,
`src-tauri/src/core/agent/run.rs` (lines 644-666).
-/

/-- Largest `u64` value. -/
def u64max : Nat := 2 ^ 64 - 1

/-- Model of `u64::saturating_add`. -/
def satAdd (a b : Nat) : Nat := min (a + b) u64max

/-- Model of `add_optional` (llm/mod.rs:114-121). -/
def add_optional : Option Nat → Option Nat → Option Nat
  | some l, some r => some (satAdd l r)
  | none, some r => some r
  | some l, none => some l
  | none, none => none

/-- Model of `max_optional` (llm/mod.rs:123-130). -/
def max_optional : Option Nat → Option Nat → Option Nat
  | some l, some r => some (max l r)
  | none, some r => some r
  | some l, none => some l
  | none, none => none

/-- Model of `TokenUsage`: six optional `u64` counters. -/
structure TokenUsage where
  input_tokens : Option Nat
  output_tokens : Option Nat
  total_tokens : Option Nat
  reasoning_tokens : Option Nat
  cache_read_tokens : Option Nat
  cache_write_tokens : Option Nat
deriving DecidableEq

/-- Model of `TokenUsage::default()`: all counters absent. -/
def usageDefault : TokenUsage := ⟨none, none, none, none, none, none⟩

/-- Model of `TokenUsage::saturating_add_assign` (llm/mod.rs:95-102). -/
def saturating_add_assign (self other : TokenUsage) : TokenUsage where
  input_tokens := add_optional self.input_tokens other.input_tokens
  output_tokens := add_optional self.output_tokens other.output_tokens
  total_tokens := add_optional self.total_tokens other.total_tokens
  reasoning_tokens := add_optional self.reasoning_tokens other.reasoning_tokens
  cache_read_tokens := add_optional self.cache_read_tokens other.cache_read_tokens
  cache_write_tokens := add_optional self.cache_write_tokens other.cache_write_tokens

/-- Model of `TokenUsage::merge_max_assign` (llm/mod.rs:104-111), the
per-stream merge the google/anthropic adapters apply to repeated
cumulative usage reports. -/
def merge_max_assign (self other : TokenUsage) : TokenUsage where
  input_tokens := max_optional self.input_tokens other.input_tokens
  output_tokens := max_optional self.output_tokens other.output_tokens
  total_tokens := max_optional self.total_tokens other.total_tokens
  reasoning_tokens := max_optional self.reasoning_tokens other.reasoning_tokens
  cache_read_tokens := max_optional self.cache_read_tokens other.cache_read_tokens
  cache_write_tokens := max_optional self.cache_write_tokens other.cache_write_tokens

/-- The run loop's cumulative usage: `total_token_usage` starts at
`default()` and the `StreamEvent::Usage` arm does
`total.saturating_add_assign(&usage)` for every received event
(run.rs:644-666). -/
def loop_cumulative (events : List TokenUsage) : TokenUsage :=
  events.foldl saturating_add_assign usageDefault

/-- Counter comparison: an absent counter may appear, a present counter
may only grow and never disappear. -/
def optLe (a b : Option Nat) : Bool :=
  match a, b with
  | none, _ => true
  | some _, none => false
  | some v, some w => decide (v ≤ w)

/-- Pointwise counter comparison of two usage values. -/
def usageLe (a b : TokenUsage) : Bool :=
  optLe a.input_tokens b.input_tokens && optLe a.output_tokens b.output_tokens &&
  optLe a.total_tokens b.total_tokens && optLe a.reasoning_tokens b.reasoning_tokens &&
  optLe a.cache_read_tokens b.cache_read_tokens &&
  optLe a.cache_write_tokens b.cache_write_tokens

/-- A counter that fits in `u64`, as every provider-reported counter
does. -/
def optWf (a : Option Nat) : Bool := decide (a.getD 0 ≤ u64max)

/-- A usage value whose counters all fit in `u64`. -/
def usageWf (u : TokenUsage) : Bool :=
  optWf u.input_tokens && optWf u.output_tokens && optWf u.total_tokens &&
  optWf u.reasoning_tokens && optWf u.cache_read_tokens && optWf u.cache_write_tokens

theorem optLe_refl (a : Option Nat) : optLe a a = true := by
  cases a <;> simp [optLe]

theorem optLe_trans (a b c : Option Nat) (h1 : optLe a b = true)
    (h2 : optLe b c = true) : optLe a c = true := by
  cases a <;> cases b <;> cases c <;> simp [optLe] at * <;> omega

theorem optLe_add (a b : Option Nat) (ha : optWf a = true) :
    optLe a (add_optional a b) = true := by
  cases a <;> cases b <;> simp [optLe, add_optional, optWf, satAdd] at * <;> omega

theorem optWf_add (a b : Option Nat) (ha : optWf a = true)
    (hb : optWf b = true) : optWf (add_optional a b) = true := by
  cases a <;> cases b <;> simp [add_optional, optWf, satAdd] at * <;> omega

theorem usageLe_trans (a b c : TokenUsage) (h1 : usageLe a b = true)
    (h2 : usageLe b c = true) : usageLe a c = true := by
  simp only [usageLe, Bool.and_eq_true] at h1 h2 ⊢
  exact ⟨⟨⟨⟨⟨optLe_trans _ _ _ h1.1.1.1.1.1 h2.1.1.1.1.1,
    optLe_trans _ _ _ h1.1.1.1.1.2 h2.1.1.1.1.2⟩,
    optLe_trans _ _ _ h1.1.1.1.2 h2.1.1.1.2⟩,
    optLe_trans _ _ _ h1.1.1.2 h2.1.1.2⟩,
    optLe_trans _ _ _ h1.1.2 h2.1.2⟩,
    optLe_trans _ _ _ h1.2 h2.2⟩

theorem usageLe_satAdd (u v : TokenUsage) (hu : usageWf u = true) :
    usageLe u (saturating_add_assign u v) = true := by
  simp only [usageWf, Bool.and_eq_true] at hu
  simp only [usageLe, saturating_add_assign, Bool.and_eq_true]
  exact ⟨⟨⟨⟨⟨optLe_add _ _ hu.1.1.1.1.1, optLe_add _ _ hu.1.1.1.1.2⟩,
    optLe_add _ _ hu.1.1.1.2⟩, optLe_add _ _ hu.1.1.2⟩,
    optLe_add _ _ hu.1.2⟩, optLe_add _ _ hu.2⟩

theorem usageWf_satAdd (u v : TokenUsage) (hu : usageWf u = true)
    (hv : usageWf v = true) : usageWf (saturating_add_assign u v) = true := by
  simp only [usageWf, Bool.and_eq_true] at hu hv ⊢
  exact ⟨⟨⟨⟨⟨optWf_add _ _ hu.1.1.1.1.1 hv.1.1.1.1.1,
    optWf_add _ _ hu.1.1.1.1.2 hv.1.1.1.1.2⟩,
    optWf_add _ _ hu.1.1.1.2 hv.1.1.1.2⟩,
    optWf_add _ _ hu.1.1.2 hv.1.1.2⟩,
    optWf_add _ _ hu.1.2 hv.1.2⟩, optWf_add _ _ hu.2 hv.2⟩

theorem foldl_satAdd_grows :
    ∀ (ms : List TokenUsage) (u : TokenUsage), usageWf u = true →
      (∀ m ∈ ms, usageWf m = true) →
      usageLe u (ms.foldl saturating_add_assign u) = true ∧
      usageWf (ms.foldl saturating_add_assign u) = true := by
  intro ms
  induction ms with
  | nil =>
    intro u hu _
    constructor
    · simp only [List.foldl_nil]
      simp [usageLe, optLe_refl]
    · simpa using hu
  | cons m t ih =>
    intro u hu hms
    have hm : usageWf m = true := hms m (by simp)
    have hu' : usageWf (saturating_add_assign u m) = true := usageWf_satAdd u m hu hm
    obtain ⟨hle, hwf⟩ := ih (saturating_add_assign u m) hu'
      (fun x hx => hms x (by simp [hx]))
    exact ⟨usageLe_trans _ _ _ (usageLe_satAdd u m hu) hle, hwf⟩

theorem max_optional_idem (a b : Option Nat) :
    max_optional (max_optional a b) b = max_optional a b := by
  cases a <;> cases b <;> simp [max_optional] <;> omega

/-- Counterexample to C2 as stated: the run loop's `Usage` arm
saturating-adds every received event; two identical cumulative reports
from one stream are summed, not max-merged (run.rs:647). -/
theorem C2_counterexample :
    loop_cumulative [⟨some 5, some 7, some 12, none, none, none⟩,
        ⟨some 5, some 7, some 12, none, none, none⟩] =
      ⟨some 10, some 14, some 24, none, none, none⟩ ∧
    loop_cumulative [⟨some 5, some 7, some 12, none, none, none⟩,
        ⟨some 5, some 7, some 12, none, none, none⟩] ≠
      List.foldl merge_max_assign usageDefault
        [⟨some 5, some 7, some 12, none, none, none⟩,
         ⟨some 5, some 7, some 12, none, none, none⟩] := by
  constructor <;> decide

/-- C2 (amended): the run loop saturating-adds every `Usage` event it
receives, so along any event sequence of `u64` counters the cumulative
usage never decreases; the per-stream max-merge of repeated cumulative
reports happens inside the provider adapters via `merge_max_assign`,
for which a repeated report is absorbed (no double count). -/
theorem C2_usage_accumulation :
    (∀ (events : List TokenUsage), (∀ u ∈ events, usageWf u = true) →
      ∀ (i j : Nat), i ≤ j →
        usageLe (loop_cumulative (events.take i))
          (loop_cumulative (events.take j)) = true) ∧
    (∀ acc u : TokenUsage,
      merge_max_assign (merge_max_assign acc u) u = merge_max_assign acc u) := by
  constructor
  · intro events hwf i j hij
    have hj : events.take j = events.take i ++ (events.drop i).take (j - i) := by
      have h2 : i + (j - i) = j := by omega
      conv_lhs => rw [← h2]
      rw [List.take_add]
    rw [hj]
    unfold loop_cumulative
    rw [List.foldl_append]
    have hbase := foldl_satAdd_grows (events.take i) usageDefault (by decide)
      (fun m hm => hwf m (List.mem_of_mem_take hm))
    exact (foldl_satAdd_grows ((events.drop i).take (j - i)) _ hbase.2
      (fun m hm => hwf m (List.mem_of_mem_drop (List.mem_of_mem_take hm)))).1
  · intro acc u
    cases acc
    cases u
    simp [merge_max_assign, max_optional_idem]

/-- Witness for C2 (amended) at a concrete event list. -/
theorem C2_witness :
    usageLe
      (loop_cumulative ([⟨some 5, some 7, some 12, none, none, none⟩,
        ⟨some 3, none, some 3, none, none, none⟩].take 1))
      (loop_cumulative ([⟨some 5, some 7, some 12, none, none, none⟩,
        ⟨some 3, none, some 3, none, none, none⟩].take 2)) = true :=
  C2_usage_accumulation.1
    [⟨some 5, some 7, some 12, none, none, none⟩,
     ⟨some 3, none, some 3, none, none, none⟩]
    (by decide) 1 2 (by decide)

/-!
JSON envelopes and the registry write-verification gate,
`src-tauri/src/adapters/mcp/mod.rs`.
-/

/-- Minimal JSON model for tool envelopes (numbers are the unsigned
integers the envelopes carry; objects are key-ordered association
lists). -/
inductive Json where
  | nul : Json
  | bool : Bool → Json
  | num : Nat → Json
  | str : Str → Json
  | arr : List Json → Json
  | obj : List (Str × Json) → Json

/-- Key lookup in an object's field list (first match). -/
def lookupField : List (Str × Json) → Str → Option Json
  | [], _ => none
  | (k', v) :: rest, k => if k' = k then some v else lookupField rest k

/-- Model of `Value::get(key)`: field of an object, else nothing. -/
def jGet (j : Json) (k : Str) : Option Json :=
  match j with
  | .obj fields => lookupField fields k
  | _ => none

/-- Two-level field access, `v.get(k1).and_then(|x| x.get(k2))`. -/
def jGet2 (j : Json) (k1 k2 : Str) : Option Json :=
  (jGet j k1).bind (fun x => jGet x k2)

/-- Model of `.and_then(|v| v.as_bool())`. -/
def jAsBool : Option Json → Option Bool
  | some (.bool b) => some b
  | _ => none

/-- Model of `Map::insert`: replace the value at an existing key, else
append the pair. -/
def insertField (fields : List (Str × Json)) (k : Str) (v : Json) :
    List (Str × Json) :=
  match fields with
  | [] => [(k, v)]
  | (k', v') :: rest =>
    if k' = k then (k, v) :: rest else (k', v') :: insertField rest k v

/-- Tool permission tag (mcp/mod.rs:12-16). -/
inductive Permission where
  | read : Permission
  | write : Permission
deriving DecidableEq

/-- Model of `enforce_registry_write_verification` (mcp/mod.rs:158-201):
non-Write results and results already reporting `ok=false` pass through;
a result with `proof.readback_ok` exactly `true` passes through; any
other Write result is rewritten to `ok=false` with a `verify_mismatch`
error naming `target.resolved_path`. -/
def enforce_registry_write_verification (perm : Permission) (result : Json) : Json :=
  if perm ≠ Permission.write then result
  else if jAsBool (jGet result (lit "ok")) = some false then result
  else if jAsBool (jGet2 result (lit "proof") (lit "readback_ok")) = some true then
    result
  else
    let payload := match result with
      | .obj fields => fields
      | _ => []
    let path := match jGet2 result (lit "target") (lit "resolved_path") with
      | some (.str s) => s
      | _ => lit "unknown"
    .obj (insertField (insertField payload (lit "ok") (.bool false)) (lit "error")
      (.obj [(lit "code", .str (lit "verify_mismatch")),
             (lit "message",
               .str (lit "Post-write verification mismatch for " ++ path)),
             (lit "retriable", .bool false)]))

theorem lookupField_insertField_same (fields : List (Str × Json)) (k : Str)
    (v : Json) : lookupField (insertField fields k v) k = some v := by
  induction fields with
  | nil => simp [insertField, lookupField]
  | cons p rest ih =>
    by_cases h : p.1 = k
    · simp [insertField, h, lookupField]
    · simp [insertField, h, lookupField, ih]

theorem lookupField_insertField_other (fields : List (Str × Json)) (k : Str)
    (v : Json) (q : Str) (hne : k ≠ q) :
    lookupField (insertField fields k v) q = lookupField fields q := by
  induction fields with
  | nil => simp [insertField, lookupField, hne]
  | cons p rest ih =>
    by_cases h : p.1 = k
    · simp only [insertField, if_pos h, lookupField, if_neg hne]
      rw [if_neg (show p.1 ≠ q by rw [h]; exact hne)]
    · simp only [insertField, if_neg h, lookupField]
      by_cases h2 : p.1 = q
      · simp [h2]
      · simp [h2, ih]

/-- An envelope that already reports `ok=false` (a `not_found` error from
`kb_update`) but whose proof has no `readback_ok` field. -/
def envNotFound : Json :=
  .obj [(lit "ok", .bool false),
        (lit "tool", .str (lit "kb_update")),
        (lit "action", .str (lit "kb.update")),
        (lit "result", .obj [(lit "summary", .str (lit "Tool execution failed"))]),
        (lit "proof", .obj [(lit "exists", .bool false)]),
        (lit "trace_id", .str (lit "t-1")),
        (lit "ts", .str (lit "2026-01-01T00:00:00Z")),
        (lit "duration_ms", .num 1),
        (lit "target",
          .obj [(lit "requested_path", .str (lit "missing.md")),
                (lit "resolved_path", .str (lit "missing.md")),
                (lit "ecosystem", .str (lit "zettel"))]),
        (lit "error",
          .obj [(lit "code", .str (lit "not_found")),
                (lit "message", .str (lit "Note does not exist: missing.md")),
                (lit "retriable", .bool false)])]

/-- Counterexample to C1 as stated: an envelope whose `ok` is already
`false` passes through the registry unchanged even though its
`proof.readback_ok` is not `true`, so the delivered error code stays
`not_found`, not `verify_mismatch` (mcp/mod.rs:163-166). -/
theorem C1_counterexample :
    jAsBool (jGet2 envNotFound (lit "proof") (lit "readback_ok")) ≠ some true ∧
    enforce_registry_write_verification Permission.write envNotFound = envNotFound ∧
    jGet2 (enforce_registry_write_verification Permission.write envNotFound)
        (lit "error") (lit "code") = some (.str (lit "not_found")) ∧
    lit "not_found" ≠ lit "verify_mismatch" := by
  refine ⟨by decide, rfl, rfl, by decide⟩

/-- C1 (amended): for a Write-permissioned tool result delivered through
the registry, a result already reporting `ok=false` passes through
unchanged, a result whose `proof.readback_ok` is exactly `true` passes
through unchanged, and every other result is rewritten to `ok=false`
with `error.code="verify_mismatch"`, `error.retriable=false`, with its
`target` field preserved unchanged. -/
theorem C1_registry_enforcement (result : Json) :
    (jAsBool (jGet result (lit "ok")) = some false →
      enforce_registry_write_verification Permission.write result = result) ∧
    (jAsBool (jGet2 result (lit "proof") (lit "readback_ok")) = some true →
      enforce_registry_write_verification Permission.write result = result) ∧
    (jAsBool (jGet result (lit "ok")) ≠ some false →
      jAsBool (jGet2 result (lit "proof") (lit "readback_ok")) ≠ some true →
      jAsBool (jGet (enforce_registry_write_verification Permission.write result)
        (lit "ok")) = some false ∧
      jGet2 (enforce_registry_write_verification Permission.write result)
        (lit "error") (lit "code") = some (.str (lit "verify_mismatch")) ∧
      jGet2 (enforce_registry_write_verification Permission.write result)
        (lit "error") (lit "retriable") = some (.bool false) ∧
      jGet (enforce_registry_write_verification Permission.write result)
        (lit "target") = jGet result (lit "target")) := by
  refine ⟨?_, ?_, ?_⟩
  · intro hok
    unfold enforce_registry_write_verification
    rw [if_neg (by simp), if_pos hok]
  · intro hrb
    unfold enforce_registry_write_verification
    rw [if_neg (by simp)]
    by_cases hok : jAsBool (jGet result (lit "ok")) = some false
    · rw [if_pos hok]
    · rw [if_neg hok, if_pos hrb]
  · intro hok hrb
    unfold enforce_registry_write_verification
    rw [if_neg (by simp), if_neg hok, if_neg hrb]
    refine ⟨?_, ?_, ?_, ?_⟩
    · simp only [jGet]
      rw [lookupField_insertField_other _ _ _ _ (by decide),
        lookupField_insertField_same]
      rfl
    · simp only [jGet2, jGet]
      rw [lookupField_insertField_same]
      rfl
    · simp only [jGet2, jGet]
      rw [lookupField_insertField_same]
      rfl
    · simp only [jGet]
      rw [lookupField_insertField_other _ _ _ _ (by decide),
        lookupField_insertField_other _ _ _ _ (by decide)]
      cases result <;> rfl

/-- A Write result claiming success but lacking `proof.readback_ok`. -/
def envNoProof : Json :=
  .obj [(lit "ok", .bool true),
        (lit "proof", .obj [(lit "exists", .bool true)]),
        (lit "target", .obj [(lit "resolved_path", .str (lit "n.md"))])]

/-- Witness for C1 (amended): a successful-looking envelope without
`readback_ok=true` is rewritten to a `verify_mismatch` failure with its
target preserved. -/
theorem C1_witness :
    jAsBool (jGet (enforce_registry_write_verification Permission.write envNoProof)
      (lit "ok")) = some false ∧
    jGet2 (enforce_registry_write_verification Permission.write envNoProof)
      (lit "error") (lit "code") = some (.str (lit "verify_mismatch")) ∧
    jGet2 (enforce_registry_write_verification Permission.write envNoProof)
      (lit "error") (lit "retriable") = some (.bool false) ∧
    jGet (enforce_registry_write_verification Permission.write envNoProof)
      (lit "target") = jGet envNoProof (lit "target") :=
  (C1_registry_enforcement envNoProof).2.2 (by decide) (by decide)

/-!
Vault filesystem model and the `kb_create` / `kb_update` write tools,
`src-tauri/src/adapters/mcp/mod.rs` (lines 525-600 helpers, 772-938
`execute_kb_create`, 940-1137 `execute_kb_update`) over
`src-tauri/src/adapters/vault/mod.rs` file access.  The vault is a map
from normalized relative paths to file contents; the SHA-256 from the
external `sha2` crate is an abstract hash-function parameter `h`; git
snapshots (external `git2` side effects that the tools ignore failures
of) do not affect the envelope or the file map and are elided. -/

/-- A vault state: association of note paths to their contents. -/
abbrev VaultFs := List (Str × Str)

/-- Model of `vault::read_note` on the file map. -/
def fsRead : VaultFs → Str → Option Str
  | [], _ => none
  | (p, c) :: rest, q => if p = q then some c else fsRead rest q

/-- Model of `vault::write_note` on the file map (parents are created
implicitly; the path's content is replaced or added). -/
def fsWrite : VaultFs → Str → Str → VaultFs
  | [], q, content => [(q, content)]
  | (p, c) :: rest, q, content =>
    if p = q then (q, content) :: rest else (p, c) :: fsWrite rest q content

/-- UTF-8 byte length of a string, the `fs::metadata(..).len()` of the
file's content. -/
def byteLen (s : Str) : Nat := (s.map Char.utf8Size).sum

/-- Model of `vault::NoteVerification`. -/
structure NoteVerification where
  fexists : Bool
  bytes : Nat
  hash : Str
deriving DecidableEq

/-- Model of `vault::read_note_verification`, with the abstract content
hash `h`: a missing file reports no bytes and an empty hash. -/
def read_note_verification (h : Str → Str) (fs : VaultFs) (p : Str) :
    NoteVerification :=
  match fsRead fs p with
  | none => ⟨false, 0, []⟩
  | some c => ⟨true, byteLen c, h c⟩

/-- Strip one trailing carriage return (the `\r` of a `\r\n` ending). -/
def stripCR (l : Str) : Str :=
  if l.getLast? = some '\x0d' then l.dropLast else l

/-- Model of Rust `str::lines`: split at `\n`, strip the `\r` of `\r\n`
endings, and do not yield a final empty line for a trailing newline. -/
def rustLines (s : Str) : List Str :=
  let ps := splitOnChar '\x0a' s
  let front := ps.dropLast.map stripCR
  match ps.getLast? with
  | some [] => front
  | some last => front ++ [last]
  | none => front

/-- Model of `diff_stats` (mcp/mod.rs:565-600): line-multiset diff with
total counts and a content-inequality `changed` flag. -/
def diff_stats (before after : Str) : Json :=
  let beforeLines := rustLines before
  let afterLines := rustLines after
  let keys := (beforeLines ++ afterLines).dedup
  let added := (keys.map (fun l => afterLines.count l - beforeLines.count l)).sum
  let removed := (keys.map (fun l => beforeLines.count l - afterLines.count l)).sum
  .obj [(lit "before_lines", .num beforeLines.length),
        (lit "after_lines", .num afterLines.length),
        (lit "added_lines", .num added),
        (lit "removed_lines", .num removed),
        (lit "changed", .bool (decide (before ≠ after)))]

/-- Model of `str::starts_with(prefix)`. -/
def startsWithSub (hay pre : Str) : Bool := decide (pre <+: hay)

/-- Model of `infer_ecosystem` (mcp/mod.rs:525-537). -/
def infer_ecosystem (path : Str) : Str :=
  let normalized := lowerStr (path.dropWhile (fun c => c = '/'))
  if startsWithSub normalized (lit "para/") then lit "para"
  else if startsWithSub normalized (lit "archive/") ||
    startsWithSub normalized (lit "templates/") ||
    startsWithSub normalized (lit "other/") then lit "other"
  else lit "zettel"

/-- Model of `target_payload` (mcp/mod.rs:547-553). -/
def target_payload (requested resolved : Str) : Json :=
  .obj [(lit "requested_path", .str requested),
        (lit "resolved_path", .str resolved),
        (lit "ecosystem", .str (infer_ecosystem resolved))]

/-- Model of the `envelope` builder (mcp/mod.rs:623-656); the impure
`trace_id`, `ts` and `duration_ms` readings are explicit arguments. -/
def envelope (tool action : Str) (ok : Bool) (target : Option Json)
    (result proof : Json) (error : Option Json) (trace_id ts : Str)
    (duration : Nat) : Json :=
  let base := [(lit "ok", .bool ok), (lit "tool", .str tool),
    (lit "action", .str action), (lit "result", result), (lit "proof", proof),
    (lit "trace_id", .str trace_id), (lit "ts", .str ts),
    (lit "duration_ms", .num duration)]
  let withTarget := match target with
    | some t => base ++ [(lit "target", t)]
    | none => base
  let withError := match error with
    | some e => withTarget ++ [(lit "error", e)]
    | none => withTarget
  .obj withError

/-- Model of `error_envelope` (mcp/mod.rs:658-687). -/
def error_envelope (tool action : Str) (target : Option Json) (proof : Json)
    (code message : Str) (retriable : Bool) (trace_id ts : Str)
    (duration : Nat) : Json :=
  envelope tool action false target
    (.obj [(lit "summary", .str (lit "Tool execution failed"))]) proof
    (some (.obj [(lit "code", .str code), (lit "message", .str message),
      (lit "retriable", .bool retriable)]))
    trace_id ts duration

/-- Model of `build_write_result` (mcp/mod.rs:689-695). -/
def build_write_result (summary write_action : Str) (noop : Bool) : Json :=
  .obj [(lit "summary", .str summary),
        (lit "write_action", .str write_action),
        (lit "noop", .bool noop)]

/-- Path argument extraction and normalization, `normalize_path_arg`
(mcp/mod.rs:539-545). -/
def normalize_path_arg (rawPath : Option Str) : Except Str Str :=
  match rawPath with
  | none => .error (lit "Missing path")
  | some raw => normalize_note_path raw

/-- Model of `execute_kb_create` (mcp/mod.rs:772-938), returning the
envelope together with the post-call vault state.  The interpolated byte
count inside the `file_exists` message text is elided. -/
def execute_kb_create (h : Str → Str) (fs : VaultFs) (rawPath content : Option Str)
    (trace_id ts : Str) (duration : Nat) : Json × VaultFs :=
  match normalize_path_arg rawPath with
  | .error e =>
    (error_envelope (lit "kb_create") (lit "kb.create") none (.obj [])
      (lit "invalid_arguments") e false trace_id ts duration, fs)
  | .ok requested =>
    let resolved := requested
    let target := target_payload requested resolved
    match content with
    | none =>
      (error_envelope (lit "kb_create") (lit "kb.create") (some target) (.obj [])
        (lit "invalid_arguments") (lit "Missing content") false trace_id ts
        duration, fs)
    | some content =>
      let before := read_note_verification h fs resolved
      if before.fexists then
        (error_envelope (lit "kb_create") (lit "kb.create") (some target)
          (.obj [(lit "exists", .bool true), (lit "bytes", .num before.bytes),
            (lit "hash_after", .str before.hash)])
          (lit "file_exists")
          (lit "File " ++ resolved ++
            lit " already exists. Use kb_read to see its content before deciding to update.")
          false trace_id ts duration, fs)
      else
        let fs2 := fsWrite fs resolved content
        let after := read_note_verification h fs2 resolved
        let after_content := (fsRead fs2 resolved).getD []
        let readback_ok := after.fexists && decide (after_content = content)
        let proof : Json := .obj [(lit "exists", .bool after.fexists),
          (lit "bytes", .num after.bytes), (lit "hash_before", .nul),
          (lit "hash_after", .str after.hash),
          (lit "readback_ok", .bool readback_ok),
          (lit "diff_stats", diff_stats [] after_content)]
        if readback_ok then
          (envelope (lit "kb_create") (lit "kb.create") true (some target)
            (build_write_result (lit "Created note " ++ resolved) (lit "create")
              false)
            proof none trace_id ts duration, fs2)
        else
          (error_envelope (lit "kb_create") (lit "kb.create") (some target) proof
            (lit "verify_mismatch")
            (lit "Post-write verification mismatch for " ++ resolved) false
            trace_id ts duration, fs2)

/-- Model of `execute_kb_update` (mcp/mod.rs:940-1137), returning the
envelope together with the post-call vault state. -/
def execute_kb_update (h : Str → Str) (fs : VaultFs) (rawPath content : Option Str)
    (trace_id ts : Str) (duration : Nat) : Json × VaultFs :=
  match normalize_path_arg rawPath with
  | .error e =>
    (error_envelope (lit "kb_update") (lit "kb.update") none (.obj [])
      (lit "invalid_arguments") e false trace_id ts duration, fs)
  | .ok requested =>
    let resolved := requested
    let target := target_payload requested resolved
    match content with
    | none =>
      (error_envelope (lit "kb_update") (lit "kb.update") (some target) (.obj [])
        (lit "invalid_arguments") (lit "Missing content") false trace_id ts
        duration, fs)
    | some content =>
      let before := read_note_verification h fs resolved
      if !before.fexists then
        (error_envelope (lit "kb_update") (lit "kb.update") (some target)
          (.obj [(lit "exists", .bool false)])
          (lit "not_found")
          (lit "Note does not exist: " ++ resolved ++
            lit ". Use kb_create for new notes.")
          false trace_id ts duration, fs)
      else
        let before_content := (fsRead fs resolved).getD []
        let desired_hash := h content
        if before.hash = desired_hash then
          (envelope (lit "kb_update") (lit "kb.update") true (some target)
            (build_write_result (lit "No changes needed for " ++ resolved)
              (lit "noop") true)
            (.obj [(lit "exists", .bool true), (lit "bytes", .num before.bytes),
              (lit "hash_before", .str before.hash),
              (lit "hash_after", .str before.hash),
              (lit "readback_ok", .bool true),
              (lit "diff_stats", diff_stats before_content before_content)])
            none trace_id ts duration, fs)
        else
          let fs2 := fsWrite fs resolved content
          let after := read_note_verification h fs2 resolved
          let after_content := (fsRead fs2 resolved).getD []
          let readback_ok := after.fexists && decide (after_content = content)
          let proof : Json := .obj [(lit "exists", .bool after.fexists),
            (lit "bytes", .num after.bytes),
            (lit "hash_before", .str before.hash),
            (lit "hash_after", .str after.hash),
            (lit "readback_ok", .bool readback_ok),
            (lit "diff_stats", diff_stats before_content after_content)]
          if readback_ok then
            (envelope (lit "kb_update") (lit "kb.update") true (some target)
              (build_write_result (lit "Updated note " ++ resolved) (lit "edit")
                false)
              proof none trace_id ts duration, fs2)
          else
            (error_envelope (lit "kb_update") (lit "kb.update") (some target)
              proof (lit "verify_mismatch")
              (lit "Post-write verification mismatch for " ++ resolved) false
              trace_id ts duration, fs2)

theorem fsRead_fsWrite_same (fs : VaultFs) (p c : Str) :
    fsRead (fsWrite fs p c) p = some c := by
  induction fs with
  | nil => simp [fsWrite, fsRead]
  | cons e rest ih =>
    by_cases h : e.1 = p
    · simp [fsWrite, h, fsRead]
    · simp [fsWrite, h, fsRead, ih]

/-- C4: calling `kb_create` on an already existing path yields `ok=false`
with `error.code="file_exists"` and `proof.exists=true`, and leaves the
vault (in particular the file's content) unchanged. -/
theorem C4_kb_create_existing (h : Str → Str) (fs : VaultFs)
    (raw content np cur : Str) (hnp : normalize_note_path raw = .ok np)
    (hcur : fsRead fs np = some cur) (tid ts : Str) (dur : Nat) :
    jAsBool (jGet (execute_kb_create h fs (some raw) (some content) tid ts dur).1
      (lit "ok")) = some false ∧
    jGet2 (execute_kb_create h fs (some raw) (some content) tid ts dur).1
      (lit "error") (lit "code") = some (.str (lit "file_exists")) ∧
    jGet2 (execute_kb_create h fs (some raw) (some content) tid ts dur).1
      (lit "proof") (lit "exists") = some (.bool true) ∧
    (execute_kb_create h fs (some raw) (some content) tid ts dur).2 = fs ∧
    fsRead (execute_kb_create h fs (some raw) (some content) tid ts dur).2 np =
      some cur := by
  have hred : execute_kb_create h fs (some raw) (some content) tid ts dur =
      (error_envelope (lit "kb_create") (lit "kb.create")
        (some (target_payload np np))
        (.obj [(lit "exists", .bool true), (lit "bytes", .num (byteLen cur)),
          (lit "hash_after", .str (h cur))])
        (lit "file_exists")
        (lit "File " ++ np ++
          lit " already exists. Use kb_read to see its content before deciding to update.")
        false tid ts dur, fs) := by
    unfold execute_kb_create normalize_path_arg
    dsimp only
    rw [hnp]
    dsimp only
    simp only [read_note_verification, hcur]
    simp
  refine ⟨?_, ?_, ?_, ?_, ?_⟩
  · rw [hred]; rfl
  · rw [hred]; rfl
  · rw [hred]; rfl
  · rw [hred]
  · rw [hred]; exact hcur

/-- Witness for C4 at the spec's seed scenario (`a.md="x"`, create with
`"y"`), with the identity function standing in for the abstract content
hash. -/
theorem C4_witness :
    jAsBool (jGet (execute_kb_create (fun s => s) [(lit "a.md", lit "x")]
      (some (lit "a.md")) (some (lit "y")) [] [] 0).1 (lit "ok")) = some false ∧
    jGet2 (execute_kb_create (fun s => s) [(lit "a.md", lit "x")]
      (some (lit "a.md")) (some (lit "y")) [] [] 0).1
      (lit "error") (lit "code") = some (.str (lit "file_exists")) ∧
    jGet2 (execute_kb_create (fun s => s) [(lit "a.md", lit "x")]
      (some (lit "a.md")) (some (lit "y")) [] [] 0).1
      (lit "proof") (lit "exists") = some (.bool true) ∧
    (execute_kb_create (fun s => s) [(lit "a.md", lit "x")]
      (some (lit "a.md")) (some (lit "y")) [] [] 0).2 = [(lit "a.md", lit "x")] ∧
    fsRead (execute_kb_create (fun s => s) [(lit "a.md", lit "x")]
      (some (lit "a.md")) (some (lit "y")) [] [] 0).2 (lit "a.md") =
      some (lit "x") :=
  C4_kb_create_existing (fun s => s) [(lit "a.md", lit "x")] (lit "a.md")
    (lit "y") (lit "a.md") (lit "x") (by rfl) (by rfl) [] [] 0

/-- C3: `kb_update` fails with `not_found` when the target is absent
(vault unchanged); when the hash of the submitted content equals the
current file hash it reports a successful `noop` with `readback_ok=true`
and an unchanged diff without writing; otherwise it writes the file and
reports `write_action="edit"` with diff-stats of before versus after
contents. -/
theorem C3_kb_update (h : Str → Str) (fs : VaultFs) (raw content np : Str)
    (hnp : normalize_note_path raw = .ok np) (tid ts : Str) (dur : Nat) :
    (fsRead fs np = none →
      jAsBool (jGet (execute_kb_update h fs (some raw) (some content) tid ts dur).1
        (lit "ok")) = some false ∧
      jGet2 (execute_kb_update h fs (some raw) (some content) tid ts dur).1
        (lit "error") (lit "code") = some (.str (lit "not_found")) ∧
      (execute_kb_update h fs (some raw) (some content) tid ts dur).2 = fs) ∧
    (∀ cur, fsRead fs np = some cur → h cur = h content →
      jAsBool (jGet (execute_kb_update h fs (some raw) (some content) tid ts dur).1
        (lit "ok")) = some true ∧
      jGet2 (execute_kb_update h fs (some raw) (some content) tid ts dur).1
        (lit "result") (lit "write_action") = some (.str (lit "noop")) ∧
      jGet2 (execute_kb_update h fs (some raw) (some content) tid ts dur).1
        (lit "result") (lit "noop") = some (.bool true) ∧
      jGet2 (execute_kb_update h fs (some raw) (some content) tid ts dur).1
        (lit "proof") (lit "readback_ok") = some (.bool true) ∧
      (jGet2 (execute_kb_update h fs (some raw) (some content) tid ts dur).1
        (lit "proof") (lit "diff_stats")).bind (fun d => jGet d (lit "changed")) =
        some (.bool false) ∧
      (execute_kb_update h fs (some raw) (some content) tid ts dur).2 = fs) ∧
    (∀ cur, fsRead fs np = some cur → h cur ≠ h content →
      jAsBool (jGet (execute_kb_update h fs (some raw) (some content) tid ts dur).1
        (lit "ok")) = some true ∧
      jGet2 (execute_kb_update h fs (some raw) (some content) tid ts dur).1
        (lit "result") (lit "write_action") = some (.str (lit "edit")) ∧
      jGet2 (execute_kb_update h fs (some raw) (some content) tid ts dur).1
        (lit "proof") (lit "diff_stats") = some (diff_stats cur content) ∧
      (execute_kb_update h fs (some raw) (some content) tid ts dur).2 =
        fsWrite fs np content ∧
      fsRead (execute_kb_update h fs (some raw) (some content) tid ts dur).2 np =
        some content) := by
  refine ⟨?_, ?_, ?_⟩
  · intro hnone
    have hred : execute_kb_update h fs (some raw) (some content) tid ts dur =
        (error_envelope (lit "kb_update") (lit "kb.update")
          (some (target_payload np np)) (.obj [(lit "exists", .bool false)])
          (lit "not_found")
          (lit "Note does not exist: " ++ np ++
            lit ". Use kb_create for new notes.")
          false tid ts dur, fs) := by
      unfold execute_kb_update normalize_path_arg
      dsimp only
      rw [hnp]
      dsimp only
      simp only [read_note_verification, hnone]
      simp
    refine ⟨by rw [hred]; rfl, by rw [hred]; rfl, by rw [hred]⟩
  · intro cur hcur heq
    have hred : execute_kb_update h fs (some raw) (some content) tid ts dur =
        (envelope (lit "kb_update") (lit "kb.update") true
          (some (target_payload np np))
          (build_write_result (lit "No changes needed for " ++ np) (lit "noop")
            true)
          (.obj [(lit "exists", .bool true), (lit "bytes", .num (byteLen cur)),
            (lit "hash_before", .str (h cur)), (lit "hash_after", .str (h cur)),
            (lit "readback_ok", .bool true),
            (lit "diff_stats", diff_stats cur cur)])
          none tid ts dur, fs) := by
      unfold execute_kb_update normalize_path_arg
      dsimp only
      rw [hnp]
      dsimp only
      simp only [read_note_verification, hcur]
      simp [heq]
    refine ⟨by rw [hred]; rfl, by rw [hred]; rfl, by rw [hred]; rfl,
      by rw [hred]; rfl, ?_, by rw [hred]⟩
    rw [hred]
    have hchanged : decide (cur ≠ cur) = false := by simp
    show (some (diff_stats cur cur)).bind (fun d => jGet d (lit "changed")) = _
    simp only [Option.bind, diff_stats, jGet, lookupField, hchanged]
    rfl
  · intro cur hcur hne
    have hred : execute_kb_update h fs (some raw) (some content) tid ts dur =
        (envelope (lit "kb_update") (lit "kb.update") true
          (some (target_payload np np))
          (build_write_result (lit "Updated note " ++ np) (lit "edit") false)
          (.obj [(lit "exists", .bool true),
            (lit "bytes", .num (byteLen content)),
            (lit "hash_before", .str (h cur)),
            (lit "hash_after", .str (h content)),
            (lit "readback_ok", .bool true),
            (lit "diff_stats", diff_stats cur content)])
          none tid ts dur, fsWrite fs np content) := by
      unfold execute_kb_update normalize_path_arg
      dsimp only
      rw [hnp]
      dsimp only
      simp only [read_note_verification, hcur, fsRead_fsWrite_same]
      simp [hne]
    refine ⟨by rw [hred]; rfl, by rw [hred]; rfl, by rw [hred]; rfl,
      by rw [hred], ?_⟩
    rw [hred]
    exact fsRead_fsWrite_same fs np content

/-- Witness for C3 at the spec's noop scenario (`note.md="identical"`
updated with `"identical"`), with the identity function standing in for
the abstract content hash. -/
theorem C3_witness :
    jAsBool (jGet (execute_kb_update (fun s => s)
      [(lit "note.md", lit "identical")] (some (lit "note.md"))
      (some (lit "identical")) [] [] 0).1 (lit "ok")) = some true ∧
    jGet2 (execute_kb_update (fun s => s) [(lit "note.md", lit "identical")]
      (some (lit "note.md")) (some (lit "identical")) [] [] 0).1
      (lit "result") (lit "write_action") = some (.str (lit "noop")) ∧
    jGet2 (execute_kb_update (fun s => s) [(lit "note.md", lit "identical")]
      (some (lit "note.md")) (some (lit "identical")) [] [] 0).1
      (lit "result") (lit "noop") = some (.bool true) ∧
    jGet2 (execute_kb_update (fun s => s) [(lit "note.md", lit "identical")]
      (some (lit "note.md")) (some (lit "identical")) [] [] 0).1
      (lit "proof") (lit "readback_ok") = some (.bool true) ∧
    (jGet2 (execute_kb_update (fun s => s) [(lit "note.md", lit "identical")]
      (some (lit "note.md")) (some (lit "identical")) [] [] 0).1
      (lit "proof") (lit "diff_stats")).bind (fun d => jGet d (lit "changed")) =
      some (.bool false) ∧
    (execute_kb_update (fun s => s) [(lit "note.md", lit "identical")]
      (some (lit "note.md")) (some (lit "identical")) [] [] 0).2 =
      [(lit "note.md", lit "identical")] :=
  (C3_kb_update (fun s => s) [(lit "note.md", lit "identical")] (lit "note.md")
    (lit "identical") (lit "note.md") (by rfl) [] [] 0).2.1
    (lit "identical") (by rfl) (by rfl)

/-!
Hybrid retrieval, `src-tauri/src/adapters/vectordb/mod.rs`:
`search_vector_candidates` (lines 633-691), `search_keyword_candidates`
(693-738), `search_hybrid` (740-790) and `rrf_score` (2015-2017).
`f64` scores are modelled as exact rationals.  The `merged` hash map is
an association list in insertion order; since Rust's
`HashMap::into_values` iterates in an unspecified, run-to-run randomized
order, the value sequence handed to the sort is modelled as an arbitrary
permutation of those values.
-/

/-- Model of a `ChunkResult` row (vectordb/mod.rs). -/
structure ChunkResult where
  chunk_id : Int
  file_path : Str
  chunk_index : Nat
  heading_path : Option Str
  content : Str
  distance : ℚ
  retrieval_score : Option ℚ
deriving DecidableEq

/-- The hash-map key `(file_path, chunk_index)` of a candidate. -/
def ckey (c : ChunkResult) : Str × Nat := (c.file_path, c.chunk_index)

/-- Model of `MergedCandidate`. -/
structure MergedCandidate where
  chunk : ChunkResult
  score : ℚ
deriving DecidableEq

/-- Model of `rrf_score(rank, k) = 1 / (k + rank)` (vectordb/mod.rs:2015). -/
def rrf_score (rank : Nat) (k : ℚ) : ℚ := 1 / (k + rank)

/-- One `merged.entry(key).or_insert(score: 0.0)` followed by
`existing.score += s`: add `s` to the entry with the candidate's key
(keeping the first-seen chunk), or append a fresh entry. -/
def bump : List MergedCandidate → ChunkResult → ℚ → List MergedCandidate
  | [], c, s => [⟨c, 0 + s⟩]
  | e :: es, c, s =>
    if ckey e.chunk = ckey c then ⟨e.chunk, e.score + s⟩ :: es
    else e :: bump es c s

/-- The `for (rank, chunk) in list.enumerate()` accumulation loop of
`search_hybrid` (vectordb/mod.rs:759-773), with `i` the 0-based rank. -/
def addCands : Nat → List ChunkResult → List MergedCandidate → List MergedCandidate
  | _, [], m => m
  | i, c :: cs, m => addCands (i + 1) cs (bump m c (rrf_score (i + 1) 60))

/-- The contents of the `merged` map after both accumulation loops, in
insertion order. -/
def merged_values (vector keyword : List ChunkResult) : List MergedCandidate :=
  addCands 0 keyword (addCands 0 vector [])

/-- Model of the stable `ranked.sort_by(score descending)`
(vectordb/mod.rs:776-780). -/
def sortByScoreDesc (l : List MergedCandidate) : List MergedCandidate :=
  l.insertionSort (fun a b => b.score ≤ a.score)

/-- Attaching the fused score: `item.chunk.retrieval_score = Some(score)`
(vectordb/mod.rs:785-787). -/
def attachScore (e : MergedCandidate) : ChunkResult :=
  { e.chunk with retrieval_score := some e.score }

/-- Sort, truncate and attach scores — the tail of `search_hybrid` after
`merged.into_values()`. -/
def search_hybrid_core (values : List MergedCandidate) (limit : Nat) :
    List ChunkResult :=
  ((sortByScoreDesc values).take limit).map attachScore

/-- Model of `search_hybrid` with the hash-map iteration order made
explicit: `values` is the sequence `merged.into_values()` yields, a
permutation of `merged_values vector keyword`. -/
def search_hybrid_with (vector keyword : List ChunkResult)
    (values : List MergedCandidate) (limit : Nat) : List ChunkResult :=
  if keyword.isEmpty then vector.take limit
  else if vector.isEmpty then keyword.take limit
  else search_hybrid_core values limit

/-- Model of `search_hybrid` with iteration order fixed to insertion
order. -/
def search_hybrid (vector keyword : List ChunkResult) (limit : Nat) :
    List ChunkResult :=
  search_hybrid_with vector keyword (merged_values vector keyword) limit

/-- The candidate budget `(limit.max(1) * 4).min(200)`
(vectordb/mod.rs:746). -/
def candidate_limit (limit : Nat) : Nat := min (max limit 1 * 4) 200

/-- Model of `search_vector_candidates` (vectordb/mod.rs:633-691) given
the scored full-scan rows `(chunk, cosine similarity)`: stable sort by
similarity descending, truncate, drop the similarity. -/
def search_vector_candidates (scored : List (ChunkResult × ℚ)) (limit : Nat) :
    List ChunkResult :=
  ((scored.insertionSort (fun a b => b.2 ≤ a.2)).take limit).map (fun r => r.1)

/-- Model of `search_keyword_candidates` (vectordb/mod.rs:693-738) given
the BM25-ordered FTS rows: the SQL `LIMIT` keeps the first `limit`. -/
def search_keyword_candidates (rows : List ChunkResult) (limit : Nat) :
    List ChunkResult :=
  rows.take limit

/-- `search_hybrid` composed with both candidate searches at
`candidate_limit limit`, insertion-order iteration. -/
def search_hybrid_full (scored : List (ChunkResult × ℚ)) (rows : List ChunkResult)
    (limit : Nat) : List ChunkResult :=
  search_hybrid (search_vector_candidates scored (candidate_limit limit))
    (search_keyword_candidates rows (candidate_limit limit)) limit

/-- The 0-based rank of the first candidate with the given key. -/
def findIdxKey : List ChunkResult → (Str × Nat) → Option Nat
  | [], _ => none
  | c :: cs, kk =>
    if ckey c = kk then some 0
    else (findIdxKey cs kk).map (fun j => j + 1)

/-- The fused score the claim describes: the sum, over the modalities
that ranked the key, of `1 / (60 + rank)` with ranks starting at 1. -/
def rrfFused (v k : List ChunkResult) (kk : Str × Nat) : ℚ :=
  (match findIdxKey v kk with
   | some j => rrf_score (j + 1) 60
   | none => 0) +
  (match findIdxKey k kk with
   | some j => rrf_score (j + 1) 60
   | none => 0)

/-- Total score credited to a key in the merged list. -/
def mscore (m : List MergedCandidate) (kk : Str × Nat) : ℚ :=
  ((m.filter (fun e => decide (ckey e.chunk = kk))).map (fun e => e.score)).sum

/-- Score contribution of one enumerate loop starting at index `i`. -/
def contrib (kk : Str × Nat) : Nat → List ChunkResult → ℚ
  | _, [] => 0
  | i, c :: cs =>
    (if ckey c = kk then rrf_score (i + 1) 60 else 0) + contrib kk (i + 1) cs

theorem mscore_nil (kk : Str × Nat) : mscore [] kk = 0 := rfl

theorem mscore_cons (e : MergedCandidate) (m : List MergedCandidate)
    (kk : Str × Nat) :
    mscore (e :: m) kk =
      (if ckey e.chunk = kk then e.score else 0) + mscore m kk := by
  by_cases h : ckey e.chunk = kk
  · simp [mscore, List.filter_cons, h]
  · simp [mscore, List.filter_cons, h]

theorem mscore_bump (m : List MergedCandidate) (c : ChunkResult) (s : ℚ)
    (kk : Str × Nat) :
    mscore (bump m c s) kk = mscore m kk + (if ckey c = kk then s else 0) := by
  induction m with
  | nil =>
    by_cases h : ckey c = kk
    · simp [bump, mscore_cons, mscore_nil, h]
    · simp [bump, mscore_cons, mscore_nil, h]
  | cons e es ih =>
    by_cases hec : ckey e.chunk = ckey c
    · simp only [bump, if_pos hec]
      rw [mscore_cons, mscore_cons]
      show (if ckey e.chunk = kk then e.score + s else 0) + mscore es kk = _
      rw [hec]
      by_cases h : ckey c = kk
      · simp only [if_pos h]; ring
      · simp only [if_neg h]; ring
    · simp only [bump, if_neg hec]
      rw [mscore_cons, mscore_cons, ih]
      ring

theorem mscore_addCands (kk : Str × Nat) :
    ∀ (l : List ChunkResult) (i : Nat) (m : List MergedCandidate),
      mscore (addCands i l m) kk = mscore m kk + contrib kk i l := by
  intro l
  induction l with
  | nil => intro i m; simp [addCands, contrib]
  | cons c cs ih =>
    intro i m
    simp only [addCands, contrib]
    rw [ih (i + 1) (bump m c (rrf_score (i + 1) 60)), mscore_bump]
    ring

theorem contrib_of_not_mem (kk : Str × Nat) :
    ∀ (l : List ChunkResult) (i : Nat), kk ∉ l.map ckey → contrib kk i l = 0 := by
  intro l
  induction l with
  | nil => intro i _; rfl
  | cons c cs ih =>
    intro i hmem
    simp only [List.map_cons, List.mem_cons] at hmem
    push_neg at hmem
    simp only [contrib, if_neg (fun (h : ckey c = kk) => hmem.1 h.symm)]
    rw [ih (i + 1) hmem.2]
    ring

theorem findIdxKey_of_not_mem (kk : Str × Nat) :
    ∀ (l : List ChunkResult), kk ∉ l.map ckey → findIdxKey l kk = none := by
  intro l
  induction l with
  | nil => intro _; rfl
  | cons c cs ih =>
    intro hmem
    simp only [List.map_cons, List.mem_cons] at hmem
    push_neg at hmem
    simp only [findIdxKey, if_neg (fun (h : ckey c = kk) => hmem.1 h.symm)]
    rw [ih hmem.2]
    rfl

theorem contrib_of_nodup (kk : Str × Nat) :
    ∀ (l : List ChunkResult) (i : Nat), (l.map ckey).Nodup →
      contrib kk i l =
        (match findIdxKey l kk with
         | some j => rrf_score (i + j + 1) 60
         | none => 0) := by
  intro l
  induction l with
  | nil => intro i _; rfl
  | cons c cs ih =>
    intro i hnd
    simp only [List.map_cons, List.nodup_cons] at hnd
    by_cases h : ckey c = kk
    · simp only [contrib, if_pos h, findIdxKey, if_pos h]
      rw [contrib_of_not_mem kk cs (i + 1) (h ▸ hnd.1)]
      have : i + 0 + 1 = i + 1 := by omega
      rw [this]
      ring
    · simp only [contrib, if_neg h, findIdxKey, if_neg h]
      rw [ih (i + 1) hnd.2]
      cases hf : findIdxKey cs kk with
      | none => simp
      | some j =>
        simp only [Option.map]
        have : i + 1 + j + 1 = i + (j + 1) + 1 := by omega
        rw [this]
        ring

/-- Keys of a merged list. -/
def mkeys (m : List MergedCandidate) : List (Str × Nat) :=
  m.map (fun e => ckey e.chunk)

theorem mkeys_bump (m : List MergedCandidate) (c : ChunkResult) (s : ℚ) :
    mkeys (bump m c s) =
      if ckey c ∈ mkeys m then mkeys m else mkeys m ++ [ckey c] := by
  induction m with
  | nil => simp [bump, mkeys]
  | cons e es ih =>
    by_cases hec : ckey e.chunk = ckey c
    · simp [bump, hec, mkeys]
    · have hne : ckey c ≠ ckey e.chunk := fun h => hec h.symm
      simp only [bump, if_neg hec, mkeys, List.map_cons]
      simp only [mkeys] at ih
      rw [ih]
      by_cases hm : ckey c ∈ es.map (fun e => ckey e.chunk)
      · simp [hm, List.mem_cons]
      · simp only [if_neg hm]
        have hout : ckey c ∉ ckey e.chunk :: es.map (fun e => ckey e.chunk) := by
          simp [List.mem_cons, hne, hm]
        rw [if_neg hout]
        simp

theorem mkeys_bump_nodup (m : List MergedCandidate) (c : ChunkResult) (s : ℚ)
    (h : (mkeys m).Nodup) : (mkeys (bump m c s)).Nodup := by
  rw [mkeys_bump]
  by_cases hm : ckey c ∈ mkeys m
  · simpa [hm] using h
  · simp only [if_neg hm]
    rw [List.nodup_append]
    exact ⟨h, by simp, by simp [hm]⟩

theorem mkeys_addCands_nodup :
    ∀ (l : List ChunkResult) (i : Nat) (m : List MergedCandidate),
      (mkeys m).Nodup → (mkeys (addCands i l m)).Nodup := by
  intro l
  induction l with
  | nil => intro i m h; exact h
  | cons c cs ih =>
    intro i m h
    exact ih (i + 1) _ (mkeys_bump_nodup m c _ h)

theorem mscore_zero_of_not_mem (kk : Str × Nat) :
    ∀ (m : List MergedCandidate), kk ∉ mkeys m → mscore m kk = 0 := by
  intro m
  induction m with
  | nil => intro _; rfl
  | cons e es ih =>
    intro hmem
    simp only [mkeys, List.map_cons, List.mem_cons] at hmem
    push_neg at hmem
    rw [mscore_cons, if_neg (fun h => hmem.1 h.symm), ih (by simpa [mkeys] using hmem.2)]
    ring

theorem score_eq_mscore (m : List MergedCandidate) (hnd : (mkeys m).Nodup) :
    ∀ e ∈ m, e.score = mscore m (ckey e.chunk) := by
  induction m with
  | nil => intro e he; simp at he
  | cons x xs ih =>
    intro e he
    simp only [mkeys, List.map_cons, List.nodup_cons] at hnd
    rcases List.mem_cons.mp he with h | h
    · subst h
      rw [mscore_cons, if_pos rfl,
        mscore_zero_of_not_mem _ xs (by simpa [mkeys] using hnd.1)]
      ring
    · have hne : ckey x.chunk ≠ ckey e.chunk := by
        intro hcc
        exact hnd.1 (hcc ▸ (List.mem_map.mpr ⟨e, h, rfl⟩))
      rw [mscore_cons, if_neg hne, ih hnd.2 e h]
      ring

instance : IsTotal MergedCandidate (fun a b => b.score ≤ a.score) :=
  ⟨fun a b => le_total b.score a.score⟩

instance : IsTrans MergedCandidate (fun a b => b.score ≤ a.score) :=
  ⟨fun _ _ _ h1 h2 => le_trans h2 h1⟩

theorem sortByScoreDesc_sorted (l : List MergedCandidate) :
    (sortByScoreDesc l).Sorted (fun a b => b.score ≤ a.score) :=
  List.sorted_insertionSort _ l

theorem sortByScoreDesc_perm (l : List MergedCandidate) :
    (sortByScoreDesc l).Perm l :=
  List.perm_insertionSort _ l

theorem mscore_merged (v k : List ChunkResult) (hv : (v.map ckey).Nodup)
    (hk : (k.map ckey).Nodup) (kk : Str × Nat) :
    mscore (merged_values v k) kk = rrfFused v k kk := by
  unfold merged_values rrfFused
  rw [mscore_addCands, mscore_addCands, mscore_nil]
  rw [contrib_of_nodup kk v 0 hv, contrib_of_nodup kk k 0 hk]
  cases hv1 : findIdxKey v kk <;> cases hk1 : findIdxKey k kk <;>
    simp [Nat.zero_add]

theorem merged_keys_nodup (v k : List ChunkResult) :
    (mkeys (merged_values v k)).Nodup := by
  unfold merged_values
  exact mkeys_addCands_nodup k 0 _ (mkeys_addCands_nodup v 0 [] (by simp [mkeys]))

theorem sorted_eq_of_perm_nodup :
    ∀ (l1 l2 : List MergedCandidate), l1.Perm l2 →
      l1.Sorted (fun a b => b.score ≤ a.score) →
      l2.Sorted (fun a b => b.score ≤ a.score) →
      (l1.map (fun e => e.score)).Nodup → l1 = l2 := by
  intro l1
  induction l1 with
  | nil =>
    intro l2 hp _ _ _
    exact hp.nil_eq
  | cons a t1 ih =>
    intro l2 hp hs1 hs2 hnd
    cases l2 with
    | nil => simpa using hp.length_eq
    | cons b t2 =>
      have hab : a = b := by
        by_contra hne
        have ha2 : a ∈ b :: t2 := hp.mem_iff.mp (by simp)
        have hat2 : a ∈ t2 := by
          rcases List.mem_cons.mp ha2 with h | h
          · exact absurd h hne
          · exact h
        have hb1 : b ∈ a :: t1 := hp.mem_iff.mpr (by simp)
        have hbt1 : b ∈ t1 := by
          rcases List.mem_cons.mp hb1 with h | h
          · exact absurd h.symm hne
          · exact h
        have hle1 : a.score ≤ b.score := (List.sorted_cons.mp hs2).1 a hat2
        have hle2 : b.score ≤ a.score := (List.sorted_cons.mp hs1).1 b hbt1
        have heq : b.score = a.score := le_antisymm hle2 hle1
        simp only [List.map_cons, List.nodup_cons] at hnd
        exact hnd.1 (heq ▸ List.mem_map.mpr ⟨b, hbt1, rfl⟩)
      subst hab
      have ht : t1 = t2 := by
        refine ih t2 hp.cons_inv (List.sorted_cons.mp hs1).2
          (List.sorted_cons.mp hs2).2 ?_
        simp only [List.map_cons, List.nodup_cons] at hnd
        exact hnd.2
      rw [ht]

theorem isEmpty_false_of_ne_nil {α : Type} (l : List α) (h : l ≠ []) :
    l.isEmpty = false := by
  cases l with
  | nil => exact absurd rfl h
  | cons x xs => rfl

/-- C5: with `limit ≥ 1` and key-distinct source tables, hybrid search
draws at most `min(4·limit, 200)` candidates from each modality, returns
the single non-empty modality truncated to `limit` when the other is
empty, and otherwise returns at most `limit` candidates in descending
fused-score order, each carrying `retrieval_score` equal to the sum over
the modalities that ranked it of `1/(60 + rank)` with ranks starting at
1. -/
theorem C5_hybrid_search (scored : List (ChunkResult × ℚ)) (rows : List ChunkResult)
    (limit : Nat) (hlim : 1 ≤ limit)
    (hvn : (scored.map (fun r => ckey r.1)).Nodup)
    (hkn : (rows.map ckey).Nodup) :
    candidate_limit limit = min (4 * limit) 200 ∧
    (search_vector_candidates scored (candidate_limit limit)).length ≤
      min (4 * limit) 200 ∧
    (search_keyword_candidates rows (candidate_limit limit)).length ≤
      min (4 * limit) 200 ∧
    (search_keyword_candidates rows (candidate_limit limit) = [] →
      search_hybrid_full scored rows limit =
        (search_vector_candidates scored (candidate_limit limit)).take limit) ∧
    (search_vector_candidates scored (candidate_limit limit) = [] →
      search_hybrid_full scored rows limit =
        (search_keyword_candidates rows (candidate_limit limit)).take limit) ∧
    (search_hybrid_full scored rows limit).length ≤ limit ∧
    (search_vector_candidates scored (candidate_limit limit) ≠ [] →
      search_keyword_candidates rows (candidate_limit limit) ≠ [] →
      (∀ c ∈ search_hybrid_full scored rows limit,
        c.retrieval_score = some (rrfFused
          (search_vector_candidates scored (candidate_limit limit))
          (search_keyword_candidates rows (candidate_limit limit)) (ckey c))) ∧
      List.Pairwise (fun a b : ChunkResult =>
        b.retrieval_score.getD 0 ≤ a.retrieval_score.getD 0)
        (search_hybrid_full scored rows limit)) := by
  have hcl : candidate_limit limit = min (4 * limit) 200 := by
    unfold candidate_limit
    rw [Nat.max_eq_left hlim, Nat.mul_comm]
  have hvnd : ((search_vector_candidates scored (candidate_limit limit)).map
      ckey).Nodup := by
    unfold search_vector_candidates
    rw [List.map_map]
    have hperm :=
      (List.perm_insertionSort (fun a b : ChunkResult × ℚ => b.2 ≤ a.2) scored).map
        (fun r => ckey r.1)
    have hnd2 := hperm.nodup_iff.mpr hvn
    exact hnd2.sublist ((List.take_sublist _ _).map _)
  have hknd : ((search_keyword_candidates rows (candidate_limit limit)).map
      ckey).Nodup := by
    unfold search_keyword_candidates
    exact hkn.sublist ((List.take_sublist _ _).map _)
  refine ⟨hcl, ?_, ?_, ?_, ?_, ?_, ?_⟩
  · rw [← hcl]
    simp only [search_vector_candidates, List.length_map, List.length_take]
    exact Nat.min_le_left _ _
  · rw [← hcl]
    simp only [search_keyword_candidates, List.length_take]
    exact Nat.min_le_left _ _
  · intro hk
    unfold search_hybrid_full search_hybrid search_hybrid_with
    rw [hk]
    rfl
  · intro hv
    unfold search_hybrid_full search_hybrid search_hybrid_with
    rw [hv]
    by_cases hk : search_keyword_candidates rows (candidate_limit limit) = []
    · rw [hk]; rfl
    · rw [isEmpty_false_of_ne_nil _ hk]
      rfl
  · unfold search_hybrid_full search_hybrid search_hybrid_with
    by_cases hk : search_keyword_candidates rows (candidate_limit limit) = []
    · rw [hk]
      simp
    · rw [isEmpty_false_of_ne_nil _ hk]
      by_cases hv : search_vector_candidates scored (candidate_limit limit) = []
      · rw [hv]
        simp
      · rw [isEmpty_false_of_ne_nil _ hv]
        simp only [Bool.false_eq_true, if_false, search_hybrid_core,
          List.length_map, List.length_take]
        exact Nat.min_le_left _ _
  · intro hv hk
    have hcore : search_hybrid_full scored rows limit =
        search_hybrid_core (merged_values
          (search_vector_candidates scored (candidate_limit limit))
          (search_keyword_candidates rows (candidate_limit limit))) limit := by
      unfold search_hybrid_full search_hybrid search_hybrid_with
      rw [isEmpty_false_of_ne_nil _ hk, isEmpty_false_of_ne_nil _ hv]
      rfl
    rw [hcore]
    constructor
    · intro c hc
      simp only [search_hybrid_core, List.mem_map] at hc
      obtain ⟨e, he, hce⟩ := hc
      have hem : e ∈ merged_values _ _ :=
        (sortByScoreDesc_perm _).mem_iff.mp (List.mem_of_mem_take he)
      have hescore := score_eq_mscore _ (merged_keys_nodup _ _) e hem
      have hmsc := mscore_merged _ _ hvnd hknd (ckey e.chunk)
      rw [← hce]
      show some e.score = _
      rw [hescore, hmsc]
      rfl
    · have hsorted := sortByScoreDesc_sorted (merged_values
        (search_vector_candidates scored (candidate_limit limit))
        (search_keyword_candidates rows (candidate_limit limit)))
      have htake := hsorted.sublist (List.take_sublist limit _)
      exact List.pairwise_map.mpr (htake.imp (fun h => h))

/-- Witness for C5 at a concrete input, discharging its hypotheses. -/
theorem C5_witness : candidate_limit 1 = min (4 * 1) 200 :=
  (C5_hybrid_search [] [] 1 (by decide) (by decide) (by decide)).1

/-- A vector-modality candidate for the fusion scenario. -/
def chunkA : ChunkResult := ⟨1, lit "n.md", 0, none, lit "alpha", 0, none⟩

/-- A keyword-modality candidate for the fusion scenario. -/
def chunkB : ChunkResult := ⟨2, lit "n.md", 1, none, lit "beta", 0, none⟩

/-- Counterexample to C6 as stated: with vector ranks `[A, B]` and
keyword ranks `[B, A]` both candidates get the identical fused score
`1/61 + 1/62`; the value sequence the sort receives comes from
`HashMap::into_values`, whose iteration order is randomized per map, and
the two orders of the same merged values produce different ranked
outputs — so tie-break is not stable insertion order and two runs need
not be byte-identical. -/
theorem C6_counterexample :
    (merged_values [chunkA, chunkB] [chunkB, chunkA]).map (fun e => e.score) =
      [1 / 61 + 1 / 62, 1 / 61 + 1 / 62] ∧
    (merged_values [chunkA, chunkB] [chunkB, chunkA]).reverse.Perm
      (merged_values [chunkA, chunkB] [chunkB, chunkA]) ∧
    search_hybrid_with [chunkA, chunkB] [chunkB, chunkA]
        (merged_values [chunkA, chunkB] [chunkB, chunkA]) 2 ≠
      search_hybrid_with [chunkA, chunkB] [chunkB, chunkA]
        (merged_values [chunkA, chunkB] [chunkB, chunkA]).reverse 2 := by
  have hM : merged_values [chunkA, chunkB] [chunkB, chunkA] =
      [⟨chunkA, 0 + rrf_score 1 60 + rrf_score 2 60⟩,
       ⟨chunkB, 0 + rrf_score 2 60 + rrf_score 1 60⟩] := by
    simp [merged_values, addCands, bump, ckey, chunkA, chunkB]
  have hs : (0 : ℚ) + rrf_score 2 60 + rrf_score 1 60 =
      0 + rrf_score 1 60 + rrf_score 2 60 := by ring
  refine ⟨?_, ?_, ?_⟩
  · rw [hM]
    simp only [List.map_cons, List.map_nil, rrf_score]
    norm_num
  · rw [hM]
    exact List.Perm.swap _ _ _
  · rw [hM]
    show search_hybrid_core
        [⟨chunkA, 0 + rrf_score 1 60 + rrf_score 2 60⟩,
         ⟨chunkB, 0 + rrf_score 2 60 + rrf_score 1 60⟩] 2 ≠
      search_hybrid_core
        [⟨chunkB, 0 + rrf_score 2 60 + rrf_score 1 60⟩,
         ⟨chunkA, 0 + rrf_score 1 60 + rrf_score 2 60⟩] 2
    unfold search_hybrid_core sortByScoreDesc
    simp only [List.insertionSort, List.orderedInsert]
    rw [if_pos (le_of_eq hs), if_pos (le_of_eq hs.symm)]
    intro h
    have hhead := congrArg (fun l => l.map (fun c => c.chunk_id)) h
    simp [attachScore, chunkA, chunkB] at hhead

/-- C6 (amended): `search_hybrid` is a pure function of the candidate
lists, the limit, and the hash-map iteration order; whenever all fused
scores are pairwise distinct, the ranked output does not depend on the
iteration order, so two runs on an unchanged index agree; only
equal-score candidates may change relative order between runs. -/
theorem C6_hybrid_determinism (vector keyword : List ChunkResult) (limit : Nat)
    (vs1 vs2 : List MergedCandidate)
    (h1 : vs1.Perm (merged_values vector keyword))
    (h2 : vs2.Perm (merged_values vector keyword))
    (hnd : ((merged_values vector keyword).map (fun e => e.score)).Nodup) :
    search_hybrid_with vector keyword vs1 limit =
      search_hybrid_with vector keyword vs2 limit := by
  unfold search_hybrid_with
  cases hk : keyword.isEmpty
  · cases hv : vector.isEmpty
    · simp only [Bool.false_eq_true, if_false]
      have hsort : sortByScoreDesc vs1 = sortByScoreDesc vs2 := by
        apply sorted_eq_of_perm_nodup
        · exact (sortByScoreDesc_perm vs1).trans
            (h1.trans (h2.symm.trans (sortByScoreDesc_perm vs2).symm))
        · exact sortByScoreDesc_sorted vs1
        · exact sortByScoreDesc_sorted vs2
        · exact (((sortByScoreDesc_perm vs1).trans h1).map
            (fun e => e.score)).nodup_iff.mpr hnd
      simp [search_hybrid_core, hsort]
    · simp [hv]
  · simp [hk]

/-- Witness for C6 (amended): with distinct fused scores, insertion
order and its reversal give the same ranked output. -/
theorem C6_witness :
    search_hybrid_with [chunkA, chunkB] [chunkA, chunkB]
        (merged_values [chunkA, chunkB] [chunkA, chunkB]) 2 =
      search_hybrid_with [chunkA, chunkB] [chunkA, chunkB]
        (merged_values [chunkA, chunkB] [chunkA, chunkB]).reverse 2 := by
  have hM : merged_values [chunkA, chunkB] [chunkA, chunkB] =
      [⟨chunkA, 0 + rrf_score 1 60 + rrf_score 1 60⟩,
       ⟨chunkB, 0 + rrf_score 2 60 + rrf_score 2 60⟩] := by
    simp [merged_values, addCands, bump, ckey, chunkA, chunkB]
  apply C6_hybrid_determinism
  · exact List.Perm.refl _
  · rw [hM]
    exact List.Perm.swap _ _ _
  · rw [hM]
    simp only [List.map_cons, List.map_nil, List.nodup_cons, List.mem_singleton,
      List.mem_nil_iff, List.nodup_nil, rrf_score]
    norm_num

end Meld
